import Mathlib

/-!
Verification of the tt_lazy lazy tensor engine core against its specification.

Shallow embedding conventions, used uniformly below:

* float32 buffer elements are modeled by integers (every concrete vector used
  by the spec scenarios is integer-valued and exact in float32); the float
  scalar op parameters (alpha, beta of MatMulArgs) are modeled by rationals.
* NodeId, OpTypeId, shape dimensions are modeled by Nat.
* C++ exceptions are modeled by Except / Option return values.
* Iteration order of std::unordered_map / std::unordered_set, which C++ leaves
  unspecified, is modeled as insertion order (for the Kahn seeding of
  TapeGenerator::topological_sort) or passed in as an explicit enumeration
  parameter (for the outer loop of Context::topological_sort).
* The recursive / worklist graph walks of the C++ source carry an explicit
  fuel : Nat argument bounding recursion depth; theorems assume fuel is
  large enough and include lemmas showing the bound suffices.
* std::vector push_back loops are modeled by List appends; unordered_map
  contents by association lists with first-match lookup.
-/

namespace TTLazy

/-- Lifecycle state of the flat Tensor of src/src/Tensor.cpp
(State::LAZY / State::MATERIALIZED). -/
inductive TensorState where
  | lazy
  | materialized
deriving DecidableEq, Repr

/-- The flat Tensor of includes/Tensor.hpp / src/src/Tensor.cpp:
state, producer node id, output index, rank, the fixed 4-slot shape array
(padded with 1s), the host buffer (unique_ptr float buffer, value-initialized
to zero on allocation), the constant flag.  The external constant buffer
(constant_data_) is modeled by value in the same data field.  The mutable
evaluation_in_progress_ flag is carried explicitly. -/
structure Tensor where
  state : TensorState := .lazy
  producer_node : Nat := 0
  output_index : Nat := 0
  rank : Nat := 0
  shape4 : List Nat := [1, 1, 1, 1]
  data : List Int := []
  is_constant : Bool := false
  eval_in_progress : Bool := false
deriving DecidableEq, Repr

/-- shape padding done by every Tensor constructor:
copy the given dims, fill the remaining of the 4 slots with 1. -/
def mkShape4 (shape : List Nat) : List Nat :=
  shape ++ List.replicate (4 - shape.length) 1

/-- numel: product of the first rank dims (Tensor::compute_numel). -/
def Tensor.totalElements (t : Tensor) : Nat :=
  (t.shape4.take t.rank).prod

/-- numel of a freshly constructed tensor of the given shape. -/
def shapeNumel (shape : List Nat) : Nat :=
  ((mkShape4 shape).take shape.length).prod

/-- The shape as seen through shape()..shape()+rank(), used by the kernels. -/
def Tensor.shapeList (t : Tensor) : List Nat :=
  t.shape4.take t.rank

def Tensor.is_lazy (t : Tensor) : Bool :=
  t.state == .lazy

def Tensor.is_materialized (t : Tensor) : Bool :=
  t.state == .materialized

/-- Tensor(NodeId, output_idx, shape): lazy tensor referencing a node output. -/
def Tensor.lazyOf (producer : Nat) (outputIndex : Nat) (shape : List Nat) : Tensor :=
  { state := .lazy, producer_node := producer, output_index := outputIndex,
    rank := shape.length, shape4 := mkShape4 shape, data := [], is_constant := false }

/-- Tensor(shape): materialized tensor with a zero value-initialized buffer
(make_unique of float array value-initializes). -/
def Tensor.ofShape (shape : List Nat) : Tensor :=
  { state := .materialized, producer_node := 0, output_index := 0,
    rank := shape.length, shape4 := mkShape4 shape,
    data := List.replicate (shapeNumel shape) 0,
    is_constant := false }

/-- Tensor(shape, data): materialized non-constant tensor; allocates a zeroed
buffer of numel entries, then copies data.size() entries into its front
(src/src/Tensor.cpp lines 93-115).  Note is_constant_ is false here. -/
def Tensor.ofShapeData (shape : List Nat) (data : List Int) : Tensor :=
  let n := shapeNumel shape
  { state := .materialized, producer_node := 0, output_index := 0,
    rank := shape.length, shape4 := mkShape4 shape,
    data := (data.take n) ++ List.replicate (n - data.length) 0,
    is_constant := false }

/-- Tensor(void ptr, shape): constant tensor wrapping an external buffer
(modeled by value). -/
def Tensor.constOf (data : List Int) (shape : List Nat) : Tensor :=
  { state := .materialized, producer_node := 0, output_index := 0,
    rank := shape.length, shape4 := mkShape4 shape,
    data := data, is_constant := true }

/-- Tensor::size (src/src/Tensor.cpp lines 234-238):
dim < rank_ ? shape_[dim] : 1. -/
def Tensor.size (t : Tensor) (dim : Nat) : Nat :=
  if dim < t.rank then t.shape4.getD dim 1 else 1

/-- Indexed read of a host buffer: data[i].  Out-of-range reads (which would
be undefined behavior in C++ and never happen on the well-formed inputs the
theorems use) default to 0. -/
def bufGet (data : List Int) (i : Nat) : Int :=
  data.getD i 0

end TTLazy

namespace TTLazy

/-! ### Broadcasting helpers (src/src/Tensor.cpp lines 495-524) -/

/-- The dim contributed by shape s at output position j of the broadcast of
total rank mr, aligning from the trailing dimension.  In the C++ loop the
iteration variable is i = mr-1-j and the size_t index len-1-i wraps around
for i at or above len, failing the idx < len bound check, so positions not
covered by s contribute 1. -/
def bcDim (s : List Nat) (mr j : Nat) : Nat :=
  if mr - s.length ≤ j then s.getD (j - (mr - s.length)) 1 else 1

/-- Tensor::broadcast_shapes; the incompatible-shapes throw is modeled by
none. -/
def broadcastShapes (s1 s2 : List Nat) : Option (List Nat) :=
  let mr := max s1.length s2.length
  if (List.range mr).all (fun j =>
      let d1 := bcDim s1 mr j
      let d2 := bcDim s2 mr j
      d1 == d2 || d1 == 1 || d2 == 1) then
    some ((List.range mr).map (fun j => max (bcDim s1 mr j) (bcDim s2 mr j)))
  else
    none

/-- Tensor::can_broadcast: try broadcast_shapes, catch everything. -/
def canBroadcast (s1 s2 : List Nat) : Bool :=
  (broadcastShapes s1 s2).isSome

/-! ### math kernels (src/math) -/

/-- Error outcomes of the math kernels and handlers; each constructor stands
for one distinct runtime_error throw site of the source. -/
inductive MathErr where
  | cannotBroadcastAdd
  | broadcastAddNotImplemented
  | cannotBroadcastMultiply
  | broadcastMultiplyNotImplemented
  | matmulRankTooLow
  | matmulDimMismatch
  | matmulHighRankNotImplemented
  | fusedMlpNotMaterialized
  | fusedMlpBadWeights
  | fusedMlpBadBias
deriving DecidableEq, Repr

/-- math::relu (src/math/eltwise.cpp lines 7-19). -/
def mathRelu (input : Tensor) : Tensor :=
  let result := Tensor.ofShape input.shapeList
  { result with
    data := (List.range input.totalElements).map (fun i => max 0 (bufGet input.data i)) }

/-- math::add (src/math/eltwise.cpp lines 21-47): broadcast check, then
elementwise addition only when the two shapes are equal; any other broadcast
throws the not-fully-implemented error. -/
def mathAdd (a b : Tensor) : Except MathErr Tensor :=
  let aShape := a.shapeList
  let bShape := b.shapeList
  match broadcastShapes aShape bShape with
  | none => .error .cannotBroadcastAdd
  | some outShape =>
    let result := Tensor.ofShape outShape
    if aShape = bShape then
      .ok { result with
        data := (List.range a.totalElements).map
          (fun i => bufGet a.data i + bufGet b.data i) }
    else
      .error .broadcastAddNotImplemented

/-- math::multiply (src/math/eltwise.cpp lines 49-75). -/
def mathMultiply (a b : Tensor) : Except MathErr Tensor :=
  let aShape := a.shapeList
  let bShape := b.shapeList
  match broadcastShapes aShape bShape with
  | none => .error .cannotBroadcastMultiply
  | some outShape =>
    let result := Tensor.ofShape outShape
    if aShape = bShape then
      .ok { result with
        data := (List.range a.totalElements).map
          (fun i => bufGet a.data i * bufGet b.data i) }
    else
      .error .broadcastMultiplyNotImplemented

/-- math::matmul (src/math/matmul.cpp). -/
def mathMatmul (a b : Tensor) (ta tb : Bool) : Except MathErr Tensor :=
  if a.rank < 2 ∨ b.rank < 2 then .error .matmulRankTooLow
  else
    let aRows := if ta then a.size (a.rank - 1) else a.size (a.rank - 2)
    let aCols := if ta then a.size (a.rank - 2) else a.size (a.rank - 1)
    let bRows := if tb then b.size (b.rank - 1) else b.size (b.rank - 2)
    let bCols := if tb then b.size (b.rank - 2) else b.size (b.rank - 1)
    if aCols ≠ bRows then .error .matmulDimMismatch
    else
      let outShape := ((List.range (min a.rank b.rank - 2)).map
        (fun i => max (a.size i) (b.size i))) ++ [aRows, bCols]
      if a.rank = 2 ∧ b.rank = 2 then
        let result := Tensor.ofShape outShape
        .ok { result with
          data := (List.range (aRows * bCols)).map (fun idx =>
            let i := idx / bCols
            let j := idx % bCols
            ((List.range aCols).map (fun k =>
              (bufGet a.data (if ta then k * aRows + i else i * aCols + k)) *
              (bufGet b.data (if tb then j * bRows + k else k * bCols + j)))).sum) }
      else
        .error .matmulHighRankNotImplemented

/-- math::reduce_sum (src/math/reduce_sum.cpp lines 9-62).  The output shape
is computed from dims and keepdim; only two specific reductions are actually
implemented (rank-2 dims={1}, rank-1 dims={0}); everything else, including
the empty dims full reduction, sums all elements into result[0], leaving the
rest of the zero-initialized buffer untouched. -/
def mathReduceSum (input : Tensor) (dims : List Int) (keepdim : Bool) : Tensor :=
  let outShape :=
    ((List.range input.rank).filterMap (fun i =>
      let isReduced := dims.contains (Int.ofNat i)
      if !isReduced || keepdim then some (if isReduced then 1 else input.size i)
      else none))
  let outShape := if outShape.isEmpty then [1] else outShape
  let result := Tensor.ofShape outShape
  if dims.isEmpty then
    { result with
      data := result.data.set 0
        (((List.range input.totalElements).map (fun i => bufGet input.data i)).sum) }
  else if input.rank = 2 ∧ dims.length = 1 ∧ dims.getD 0 0 = 1 then
    let rows := input.size 0
    let cols := input.size 1
    { result with
      data := (List.range rows).map (fun i =>
        ((List.range cols).map (fun j => bufGet input.data (i * cols + j))).sum) }
  else if input.rank = 1 ∧ dims.length = 1 ∧ dims.getD 0 0 = 0 then
    { result with
      data := result.data.set 0
        (((List.range input.totalElements).map (fun i => bufGet input.data i)).sum) }
  else
    { result with
      data := result.data.set 0
        (((List.range input.totalElements).map (fun i => bufGet input.data i)).sum) }

/-- math::fused_mlp (src/math/fused_ops.cpp). -/
def mathFusedMlp (input weights bias : Tensor) (hasRelu : Bool) :
    Except MathErr Tensor :=
  if ¬(input.is_materialized ∧ weights.is_materialized ∧ bias.is_materialized) then
    .error .fusedMlpNotMaterialized
  else
    let batchSize := input.size 0
    let inputFeatures := input.size 1
    let outputFeatures := weights.size 1
    if weights.size 0 ≠ inputFeatures then .error .fusedMlpBadWeights
    else if bias.size 1 ≠ outputFeatures then .error .fusedMlpBadBias
    else
      let result := Tensor.ofShape [batchSize, outputFeatures]
      .ok { result with
        data := (List.range (batchSize * outputFeatures)).map (fun idx =>
          let batch := idx / outputFeatures
          let outFeat := idx % outputFeatures
          let s := ((List.range inputFeatures).map (fun inFeat =>
            bufGet input.data (batch * inputFeatures + inFeat) *
            bufGet weights.data (inFeat * outputFeatures + outFeat))).sum
            + bufGet bias.data outFeat
          if hasRelu then max 0 s else s) }

end TTLazy

namespace TTLazy

/-! ### Operation kinds and OpArgs (src/src/core/op_args.hpp, common.hpp)

detail::get_op_id assigns one stable process-wide integer to each distinct
operation argument type on first reference; the embedding models the type-id
space by an inductive enumeration of the registered argument types. -/

inductive OpKind where
  | split
  | matmul
  | reduce
  | relu
  | add
  | multiply
  | fusedMLP
deriving DecidableEq, Repr

inductive ReduceKind where
  | sum
  | mean
  | maxR
  | minR
deriving DecidableEq, Repr

structure SplitArgs where
  split_size : Int
  dim : Int := 0
deriving DecidableEq, Repr

structure MatMulArgs where
  transpose_a : Bool := false
  transpose_b : Bool := false
  alpha : Rat := 1
  beta : Rat := 0
deriving DecidableEq, Repr

structure ReduceArgs where
  dims : List Int := []
  keepdim : Bool := false
  rkind : ReduceKind := .sum
deriving DecidableEq, Repr

structure ReLUArgs where
  inplace : Bool := false
deriving DecidableEq, Repr

structure AddArgs where
deriving DecidableEq, Repr

structure MultiplyArgs where
deriving DecidableEq, Repr

structure FusedMLPArgs where
  has_relu : Bool := true
  fusion_info : String := ""
deriving DecidableEq, Repr

/-- The payload type registered under each operation kind. -/
@[reducible]
def PayloadOf : OpKind → Type
  | .split => SplitArgs
  | .matmul => MatMulArgs
  | .reduce => ReduceArgs
  | .relu => ReLUArgs
  | .add => AddArgs
  | .multiply => MultiplyArgs
  | .fusedMLP => FusedMLPArgs

/-- The type-erased OpArgs container: either empty (default constructed,
vtable_ null) or a payload tagged with its runtime kind.  The small-buffer /
heap storage distinction of the source is a memory-layout matter with no
observable value semantics and is not modeled. -/
def OpArgs : Type :=
  Option ((k : OpKind) × PayloadOf k)

/-- OpArgs::make, building a container holding a payload of kind k. -/
def OpArgs.make (k : OpKind) (v : PayloadOf k) : OpArgs :=
  some ⟨k, v⟩

/-- OpArgs::type_id; the empty-container throw is modeled by none. -/
def OpArgs.typeId : OpArgs → Option OpKind
  | none => none
  | some ⟨k, _⟩ => some k

/-- OpArgs::try_cast, for target kind k: null unless the stored runtime kind
matches k, in which case the payload is returned (src/src/core/op_args.hpp
lines 221-235). -/
def OpArgs.tryCast (k : OpKind) : OpArgs → Option (PayloadOf k)
  | none => none
  | some ⟨k0, v⟩ => if h : k0 = k then some (h ▸ v) else none

/-! ### Graph store (includes/Node.hpp, includes/Context.hpp,
src/src/Context.cpp) -/

/-- A graph node: stable id, operation type id, ordered inputs, consumer
list, type-erased args. -/
structure Node where
  id : Nat
  type_id : OpKind
  inputs : List Tensor := []
  output_nodes : List Nat := []
  args : OpArgs := none

/-- The graph store: the node vector.  The id-to-index map is a derived
lookup structure modeled by first-match search on ids (create_node mints
fresh ids, so ids are unique). -/
structure Context where
  nodes : List Node := []

/-- Context::get_node. -/
def Context.getNode (ctx : Context) (id : Nat) : Option Node :=
  ctx.nodes.find? (fun n => n.id == id)

/-- The inputs of a node that Context walks: not constant and with a nonzero
producer (Context.cpp lines 53-56 and 79-82). -/
def nodeWalkInputs (n : Node) : List Nat :=
  (n.inputs.filter (fun t => !t.is_constant && t.producer_node != 0)).map
    Tensor.producer_node

/-- The producers Context::topological_sort visits from id: the walkable
input producers of the node, or nothing when the id has no node. -/
def ctxParents (ctx : Context) (id : Nat) : List Nat :=
  match ctx.getNode id with
  | none => []
  | some n => nodeWalkInputs n

/-- One iteration layer of Context::get_dependencies (lines 33-62): a DFS
worklist (to_visit, popped from the back) and the accumulated set; fuel
bounds the number of loop iterations. -/
def getDepsLoop (ctx : Context) : Nat → List Nat → Finset Nat → Finset Nat
  | 0, _, deps => deps
  | _ + 1, [], deps => deps
  | fuel + 1, current :: rest, deps =>
    if current ∈ deps then getDepsLoop ctx fuel rest deps
    else getDepsLoop ctx fuel ((ctxParents ctx current).reverse ++ rest)
      (insert current deps)

/-- Context::get_dependencies: seed the worklist from the output tensors
(non-constant with a known producer), then DFS. -/
def ctxGetDependencies (ctx : Context) (outputs : List Tensor) (fuel : Nat) :
    Finset Nat :=
  let seed := (outputs.filter (fun t => !t.is_constant && t.producer_node != 0)).map
    Tensor.producer_node
  getDepsLoop ctx fuel seed.reverse ∅

/-- Failure modes of the embedded Context::topological_sort: the cycle
throw of the source, and exhaustion of the modeling fuel (never reached once
fuel is at least the node-set size plus two, see the sufficiency lemmas). -/
inductive TopoErr where
  | cycleDetected
  | outOfFuel
deriving DecidableEq, Repr

/-- The mutable state of Context::topological_sort: temp_visited (the DFS
stack marks), visited, and the result order. -/
structure TopoState where
  temp : Finset Nat := ∅
  visited : Finset Nat := ∅
  result : List Nat := []

/-- The recursive visit lambda of Context::topological_sort (Context.cpp
lines 70-89): cycle check on temp_visited, then the visited / membership
short-circuit, then mark, recurse into the walkable input producers in
order, unmark, record. -/
def visitCtx (ctx : Context) (ns : Finset Nat) :
    Nat → Nat → TopoState → Except TopoErr TopoState
  | 0, _, _ => .error .outOfFuel
  | fuel + 1, id, st =>
    if id ∈ st.temp then .error .cycleDetected
    else if id ∈ st.visited ∨ id ∉ ns then .ok st
    else
      let st1 : TopoState := { st with temp := insert id st.temp }
      match (ctxParents ctx id).foldl
          (fun (s : Except TopoErr TopoState) p =>
            match s with
            | .error e => .error e
            | .ok st2 => visitCtx ctx ns fuel p st2)
          (.ok st1) with
      | .error e => .error e
      | .ok st2 => .ok { st2 with
          temp := st2.temp.erase id,
          visited := insert id st2.visited,
          result := st2.result ++ [id] }

/-- The inner loop over a node's input producers, named for the lemmas. -/
def visitCtxList (ctx : Context) (ns : Finset Nat) (fuel : Nat)
    (ids : List Nat) (s : Except TopoErr TopoState) : Except TopoErr TopoState :=
  ids.foldl
    (fun (s : Except TopoErr TopoState) p =>
      match s with
      | .error e => .error e
      | .ok st2 => visitCtx ctx ns fuel p st2)
    s

/-- Context::topological_sort (Context.cpp lines 65-98).  The outer loop
iterates the unordered node set; its unspecified iteration order is passed
in as the enumeration parameter. -/
def ctxTopologicalSort (ctx : Context) (ns : Finset Nat) (order : List Nat)
    (fuel : Nat) : Except TopoErr (List Nat) :=
  match order.foldl
      (fun (s : Except TopoErr TopoState) id =>
        match s with
        | .error e => .error e
        | .ok st =>
          if id ∉ st.visited then visitCtx ctx ns fuel id st else .ok st)
      (.ok {}) with
  | .error e => .error e
  | .ok st => .ok st.result

end TTLazy

namespace TTLazy

/-! ### Tape IR (src/tape/TapeOperation.hpp, includes/tape/Tape.hpp) -/

/-- One tape entry.  The Tape itself is the ordered operation list; its
node-to-operation map is a derived index modeled by first-match search. -/
structure TapeOperation where
  node_id : Nat
  op_type : OpKind
  input_nodes : List Nat := []
  constant_inputs : List Tensor := []
  output_nodes : List Nat := []
  output_shapes : List (List Nat) := []
  is_constant : Bool := false
  is_evaluated : Bool := false
  result : Option Tensor := none
deriving DecidableEq, Repr

/-! ### Tape generation (src/tape/TapeGenerator.cpp) -/

/-- The lazy-input producers of a node, in input order: TapeGenerator walks
inputs with input.is_lazy(). -/
def nodeLazyInputs (n : Node) : List Nat :=
  (n.inputs.filter Tensor.is_lazy).map Tensor.producer_node

/-- The recursive collect lambda of TapeGenerator::collect_dependencies
(lines 84-99): mark visited, recurse into lazy input producers first, then
append the node id (post-order). -/
def collectDepsVisit (ctx : Context) :
    Nat → Nat → (Finset Nat × List Nat) → (Finset Nat × List Nat)
  | 0, _, acc => acc
  | fuel + 1, id, (vis, deps) =>
    if id ∈ vis then (vis, deps)
    else
      let vis1 := insert id vis
      match ctx.getNode id with
      | none => (vis1, deps)
      | some n =>
        let acc2 := (nodeLazyInputs n).foldl
          (fun a p => collectDepsVisit ctx fuel p a) (vis1, deps)
        (acc2.1, acc2.2 ++ [id])

/-- TapeGenerator::collect_dependencies (lines 80-108). -/
def collectDependencies (ctx : Context) (outputs : List Tensor) (fuel : Nat) :
    List Nat :=
  (outputs.foldl
    (fun a t => if t.is_lazy then collectDepsVisit ctx fuel t.producer_node a else a)
    ((∅ : Finset Nat), [])).2

/-! Association-list helpers modeling the unordered_map contents of
TapeGenerator::topological_sort, with iteration order modeled as insertion
order (first insertion fixes the position; operator-bracket access inserts a
default-constructed value when the key is absent). -/

/-- map[k] = v (insert or overwrite in place). -/
def alSet (l : List (Nat × Int)) (k : Nat) (v : Int) : List (Nat × Int) :=
  match l with
  | [] => [(k, v)]
  | (k0, v0) :: rest =>
    if k0 = k then (k0, v) :: rest else (k0, v0) :: alSet rest k v

/-- map[k] with default-insertion value d when absent. -/
def alGet (l : List (Nat × Int)) (k : Nat) (d : Int) : Int :=
  match l.find? (fun kv => kv.1 == k) with
  | none => d
  | some kv => kv.2

/-- adjacency map access graph[k].push_back(v). -/
def adjAdd (g : List (Nat × List Nat)) (k : Nat) (v : Nat) :
    List (Nat × List Nat) :=
  match g with
  | [] => [(k, [v])]
  | (k0, l0) :: rest =>
    if k0 = k then (k0, l0 ++ [v]) :: rest else (k0, l0) :: adjAdd rest k v

/-- adjacency map read graph[k] (default empty). -/
def adjGet (g : List (Nat × List Nat)) (k : Nat) : List Nat :=
  match g.find? (fun kv => kv.1 == k) with
  | none => []
  | some kv => kv.2

/-- The build phase of TapeGenerator::topological_sort (lines 114-127):
for each node id with a live node, set in_degree[id] = 0, then for each lazy
input record the edge and bump in_degree[id]. -/
def kahnBuild (ctx : Context) (nodes : List Nat) :
    List (Nat × List Nat) × List (Nat × Int) :=
  nodes.foldl
    (fun (acc : List (Nat × List Nat) × List (Nat × Int)) id =>
      match ctx.getNode id with
      | none => acc
      | some n =>
        let acc1 := (acc.1, alSet acc.2 id 0)
        (nodeLazyInputs n).foldl
          (fun (a : List (Nat × List Nat) × List (Nat × Int)) p =>
            (adjAdd a.1 p id, alSet a.2 id (alGet a.2 id 0 + 1)))
          acc1)
    ([], [])

/-- The neighbor scan of one Kahn iteration (lines 143-148): decrement each
out-neighbor of the popped node, collecting, in adjacency order, those whose
in-degree reaches exactly zero. -/
def kahnStep (g : List (Nat × List Nat)) (current : Nat)
    (indeg : List (Nat × Int)) : List (Nat × Int) × List Nat :=
  (adjGet g current).foldl
    (fun (a : List (Nat × Int) × List Nat) nb =>
      let d := alGet a.1 nb 0 - 1
      (alSet a.1 nb d, if d = 0 then a.2 ++ [nb] else a.2))
    (indeg, [])

/-- The Kahn queue loop (lines 129-149): pop the front, emit it, decrement
each out-neighbor, enqueue neighbors whose in-degree reaches exactly zero,
in adjacency order at the back of the queue. -/
def kahnLoop (g : List (Nat × List Nat)) :
    Nat → List Nat → List (Nat × Int) → List Nat
  | 0, _, _ => []
  | _ + 1, [], _ => []
  | fuel + 1, current :: rest, indeg =>
    let step := kahnStep g current indeg
    current :: kahnLoop g fuel (rest ++ step.2) step.1

/-- TapeGenerator::topological_sort (lines 110-152): build the in-degree
map and adjacency, seed the FIFO queue with the zero-in-degree entries in
map order, run the Kahn loop. -/
def tgTopologicalSort (ctx : Context) (nodes : List Nat) (fuel : Nat) :
    List Nat :=
  let built := kahnBuild ctx nodes
  let seed := (built.2.filter (fun kv => kv.2 == 0)).map (·.1)
  kahnLoop built.1 fuel seed built.2

/-- TapeGenerator::create_tape_operation (lines 154-180): lazy inputs give
the input NodeId list, constant inputs are copied by value into the constant
list, outputs are the node itself, the output shape is the hard-coded
default. -/
def createTapeOperation (n : Node) : TapeOperation :=
  { node_id := n.id, op_type := n.type_id,
    input_nodes := n.inputs.foldl
      (fun acc t => if t.is_lazy then acc ++ [t.producer_node] else acc) [],
    constant_inputs := n.inputs.foldl
      (fun acc t => if t.is_constant then acc ++ [t] else acc) [],
    output_nodes := [n.id],
    output_shapes := [[1, 1, 1, 1]] }

/-! ### Dead code elimination pass
(src/tape/passes/DeadCodeEliminationPass.cpp lines 12-58) -/

/-- The lazy-input list of the first tape operation carrying the id (the
collect lambda scans operations for the node id and stops at the first
match); ids without an operation contribute no further edges. -/
def dceInputs (ops : List TapeOperation) (id : Nat) : List Nat :=
  match ops.find? (fun op => op.node_id == id) with
  | none => []
  | some op => op.input_nodes

/-- The recursive collect_required lambda (lines 22-36): insert the id, then
recurse into the lazy-input list of its operation. -/
def dceVisit (ops : List TapeOperation) : Nat → Nat → Finset Nat → Finset Nat
  | 0, _, req => req
  | fuel + 1, id, req =>
    if id ∈ req then req
    else (dceInputs ops id).foldl
      (fun r p => dceVisit ops fuel p r) (insert id req)

/-- The producers of the lazy output tensors, the roots the pass starts
from (lines 39-43). -/
def lazyRootIds (outputs : List Tensor) : List Nat :=
  (outputs.filter Tensor.is_lazy).map Tensor.producer_node

/-- The full required-set computation of the pass. -/
def dceRequired (ops : List TapeOperation) (outputs : List Tensor)
    (fuel : Nat) : Finset Nat :=
  (lazyRootIds outputs).foldl (fun req r => dceVisit ops fuel r req) ∅

/-- DeadCodeEliminationPass::apply: remove the operations whose node id is
not required; returns the new operation list and the eliminated count. -/
def dceApply (ops : List TapeOperation) (outputs : List Tensor) (fuel : Nat) :
    List TapeOperation × Nat :=
  let req := dceRequired ops outputs fuel
  let kept := ops.filter (fun op => decide (op.node_id ∈ req))
  (kept, ops.length - kept.length)

/-! ### MLP fusion pass (src/tape/passes/MLPFusionPass.cpp lines 98-138) -/

/-- MLPFusionPass::apply.  The function logs, then returns 0 before reaching
any of the rewriting code: the fusion body below the early return statement
(lines 105-137) is unreachable, so the pass leaves the tape unchanged and
reports zero optimizations. -/
def mlpFusionApply (ops : List TapeOperation) (_outputs : List Tensor) :
    List TapeOperation × Nat :=
  (ops, 0)

/-! ### Tape generation pipeline (TapeGenerator::generate_tape, lines
20-74).  The default pass registry holds DeadCodeElimination (priority 10)
and MLPFusion (priority 50); the registry sort by ascending priority with a
name tie-break therefore fixes the order DCE, then fusion. -/

def generateTape (ctx : Context) (outputs : List Tensor)
    (optimizationEnabled : Bool) (fuel : Nat) : List TapeOperation :=
  let deps := collectDependencies ctx outputs fuel
  let sorted := tgTopologicalSort ctx deps fuel
  let ops := sorted.foldl
    (fun acc id =>
      match ctx.getNode id with
      | none => acc
      | some n => acc ++ [createTapeOperation n])
    []
  if optimizationEnabled then
    (mlpFusionApply (dceApply ops outputs fuel).1 outputs).1
  else
    ops

end TTLazy

namespace TTLazy

/-! ### Tape execution (src/tape/TapeExecutor.cpp,
src/tape/OperationHandlers.cpp) -/

/-- Handler / executor failures; each constructor models one throw site. -/
inductive ExecErr where
  | unknownOpType
  | missingLazyInput
  | arityMismatch (expected got : Nat)
  | mathFailed (e : MathErr)
  | missingFusedNode
  | fusedArgsKindMismatch
deriving DecidableEq, Repr

/-- The executor result map results_ (NodeId to shared result tensor);
set_result overwrites, get_result is first-match lookup, so new entries are
consed at the front. -/
abbrev ExecResults : Type :=
  List (Nat × Tensor)

/-- TapeExecutor::get_result. -/
def getResult (rs : ExecResults) (id : Nat) : Option Tensor :=
  match rs.find? (fun kv => kv.1 == id) with
  | none => none
  | some kv => some kv.2

/-- TapeExecutor::set_result. -/
def setResult (rs : ExecResults) (id : Nat) (t : Tensor) : ExecResults :=
  (id, t) :: rs

/-- The shared prologue of every handler: gather the lazy input results (in
input_nodes order, failing when one is missing) followed by copies of the
constant inputs. -/
def gatherInputs (op : TapeOperation) (rs : ExecResults) :
    Except ExecErr (List Tensor) :=
  match op.input_nodes.foldl
      (fun (acc : Except ExecErr (List Tensor)) id =>
        match acc with
        | .error e => .error e
        | .ok ts =>
          match getResult rs id with
          | none => .error .missingLazyInput
          | some t => .ok (ts ++ [t]))
      (.ok []) with
  | .error e => .error e
  | .ok ts => .ok (ts ++ op.constant_inputs)

/-- handle_split (OperationHandlers.cpp lines 9-35): arity 1, then simply
copies its input (the split parameters are not consulted). -/
def handleSplit (op : TapeOperation) (rs : ExecResults) :
    Except ExecErr Tensor :=
  match gatherInputs op rs with
  | .error e => .error e
  | .ok ts =>
    if h : ts.length = 1 then .ok (ts.get ⟨0, by omega⟩)
    else .error (.arityMismatch 1 ts.length)

/-- handle_matmul (lines 37-63): arity 2, then math::matmul with default
transpose flags. -/
def handleMatmul (op : TapeOperation) (rs : ExecResults) :
    Except ExecErr Tensor :=
  match gatherInputs op rs with
  | .error e => .error e
  | .ok ts =>
    if h : ts.length = 2 then
      match mathMatmul (ts.get ⟨0, by omega⟩) (ts.get ⟨1, by omega⟩) false false with
      | .error e => .error (.mathFailed e)
      | .ok t => .ok t
    else .error (.arityMismatch 2 ts.length)

/-- handle_reduce (lines 65-92): arity 1, then math::reduce_sum with the
hard-coded dims = [0] and default keepdim = false; the ReduceArgs stored on
the node are not consulted (the source comment says: simplified, would need
proper parameters). -/
def handleReduce (op : TapeOperation) (rs : ExecResults) :
    Except ExecErr Tensor :=
  match gatherInputs op rs with
  | .error e => .error e
  | .ok ts =>
    if h : ts.length = 1 then
      .ok (mathReduceSum (ts.get ⟨0, by omega⟩) [0] false)
    else .error (.arityMismatch 1 ts.length)

/-- handle_relu (lines 94-120). -/
def handleRelu (op : TapeOperation) (rs : ExecResults) :
    Except ExecErr Tensor :=
  match gatherInputs op rs with
  | .error e => .error e
  | .ok ts =>
    if h : ts.length = 1 then .ok (mathRelu (ts.get ⟨0, by omega⟩))
    else .error (.arityMismatch 1 ts.length)

/-- handle_add (lines 122-148). -/
def handleAdd (op : TapeOperation) (rs : ExecResults) :
    Except ExecErr Tensor :=
  match gatherInputs op rs with
  | .error e => .error e
  | .ok ts =>
    if h : ts.length = 2 then
      match mathAdd (ts.get ⟨0, by omega⟩) (ts.get ⟨1, by omega⟩) with
      | .error e => .error (.mathFailed e)
      | .ok t => .ok t
    else .error (.arityMismatch 2 ts.length)

/-- handle_multiply (lines 150-176). -/
def handleMultiply (op : TapeOperation) (rs : ExecResults) :
    Except ExecErr Tensor :=
  match gatherInputs op rs with
  | .error e => .error e
  | .ok ts =>
    if h : ts.length = 2 then
      match mathMultiply (ts.get ⟨0, by omega⟩) (ts.get ⟨1, by omega⟩) with
      | .error e => .error (.mathFailed e)
      | .ok t => .ok t
    else .error (.arityMismatch 2 ts.length)

/-- handle_fused_mlp (lines 178-214): arity 3, then the has_relu flag is
read from the node's FusedMLPArgs in the global context, and math::fused_mlp
runs on input, weights, bias. -/
def handleFusedMlp (ctx : Context) (op : TapeOperation) (rs : ExecResults) :
    Except ExecErr Tensor :=
  match gatherInputs op rs with
  | .error e => .error e
  | .ok ts =>
    if h : ts.length = 3 then
      match ctx.getNode op.node_id with
      | none => .error .missingFusedNode
      | some n =>
        match n.args.tryCast .fusedMLP with
        | none => .error .fusedArgsKindMismatch
        | some a =>
          match mathFusedMlp (ts.get ⟨0, by omega⟩) (ts.get ⟨1, by omega⟩)
              (ts.get ⟨2, by omega⟩) a.has_relu with
          | .error e => .error (.mathFailed e)
          | .ok t => .ok t
    else .error (.arityMismatch 3 ts.length)

/-- register_all_operations (lines 218-226): the handler registered for each
operation kind.  Every kind of the enumeration has a handler, matching the
seven registrations of the source. -/
def dispatchHandler (ctx : Context) (k : OpKind) :
    TapeOperation → ExecResults → Except ExecErr Tensor :=
  match k with
  | .split => handleSplit
  | .matmul => handleMatmul
  | .reduce => handleReduce
  | .relu => handleRelu
  | .add => handleAdd
  | .multiply => handleMultiply
  | .fusedMLP => handleFusedMlp ctx

/-- TapeExecutor::execute_operation (TapeExecutor.cpp lines 12-26): skip
already-evaluated entries, dispatch on the op type, and on success publish
the result in the result map, in the entry's result slot, and mark it
evaluated. -/
def executeOperation (ctx : Context) (op : TapeOperation) (rs : ExecResults) :
    Except ExecErr (TapeOperation × ExecResults) :=
  if op.is_evaluated then .ok (op, rs)
  else
    match dispatchHandler ctx op.op_type op rs with
    | .error e => .error e
    | .ok t =>
      .ok ({ op with result := some t, is_evaluated := true },
           setResult rs op.node_id t)

/-- TapeExecutor::execute_tape (lines 6-10): run the entries in order; a
handler throw aborts the remaining tape, leaving the already published
results in place. -/
def executeTape (ctx : Context) :
    List TapeOperation → ExecResults →
    List TapeOperation × ExecResults × Option ExecErr
  | [], rs => ([], rs, none)
  | op :: rest, rs =>
    match executeOperation ctx op rs with
    | .error e => (op :: rest, rs, some e)
    | .ok (op2, rs2) =>
      let r := executeTape ctx rest rs2
      (op2 :: r.1, r.2.1, r.2.2)

/-! ### Evaluation manager (src/tape/EvaluationManager.cpp) and
Tensor::eval_impl (src/src/Tensor.cpp lines 543-584) -/

structure EvalStats where
  cache_hits : Nat := 0
  cache_misses : Nat := 0
  operations_executed : Nat := 0
  memory_allocated : Nat := 0
deriving DecidableEq, Repr

/-- Persistent state of the evaluation manager: the NodeId-keyed evaluation
cache, the executor's result map (a member of the manager, persisting
across calls), and the statistics. -/
structure EMState where
  cache : List (Nat × Tensor) := []
  execResults : ExecResults := []
  stats : EvalStats := {}
deriving DecidableEq, Repr

/-- evaluation_cache_ lookup. -/
def cacheGet (cache : List (Nat × Tensor)) (id : Nat) : Option Tensor :=
  match cache.find? (fun kv => kv.1 == id) with
  | none => none
  | some kv => some kv.2

/-- Errors surfacing from an evaluate call: a kernel failure aborting the
tape, or a null final result (evaluate returned no tensor, making
Tensor::eval_impl throw its own failure). -/
inductive EvalErr where
  | execFailed (e : ExecErr)
  | nullResult
deriving DecidableEq, Repr

/-- EvaluationManager::needs_evaluation (lines 87-97). -/
def needsEvaluation (em : EMState) (t : Tensor) : Bool :=
  if t.is_materialized then false
  else if t.is_lazy then (cacheGet em.cache t.producer_node).isNone
  else false

/-- EvaluationManager::evaluate_impl (lines 60-85): generate the tape for
the root, execute it against the persistent executor map, and if execution
survives, cache every produced entry (bumping operations_executed and
memory_allocated) and look up the root result; a kernel failure propagates,
leaving the evaluation cache untouched (the partially filled executor map
persists). -/
def emEvaluateImpl (ctx : Context) (fuel : Nat) (em : EMState) (t : Tensor) :
    EMState × Except EvalErr (Option Tensor) :=
  if ¬needsEvaluation em t then (em, .ok (some t))
  else
    let tape := generateTape ctx [t] true fuel
    let r := executeTape ctx tape em.execResults
    match r.2.2 with
    | some e => ({ em with execResults := r.2.1 }, .error (.execFailed e))
    | none =>
      let em2 := r.1.foldl
        (fun (acc : EMState) op =>
          match getResult r.2.1 op.node_id with
          | none => acc
          | some res =>
            { acc with
              cache := (op.node_id, res) :: acc.cache,
              stats := { acc.stats with
                operations_executed := acc.stats.operations_executed + 1,
                memory_allocated :=
                  acc.stats.memory_allocated + res.totalElements * 4 } })
        { em with execResults := r.2.1 }
      (em2, .ok (getResult r.2.1 t.producer_node))

/-- EvaluationManager::evaluate (lines 10-29): materialized tensors are
copied back directly (a cache hit); lazy tensors with a cached producer
return the cached result (a hit); otherwise a miss is recorded and
evaluate_impl runs. -/
def emEvaluate (ctx : Context) (fuel : Nat) (em : EMState) (t : Tensor) :
    EMState × Except EvalErr (Option Tensor) :=
  if t.is_materialized then
    ({ em with stats := { em.stats with cache_hits := em.stats.cache_hits + 1 } },
     .ok (some t))
  else if t.is_lazy ∧ (cacheGet em.cache t.producer_node).isSome then
    ({ em with stats := { em.stats with cache_hits := em.stats.cache_hits + 1 } },
     .ok (cacheGet em.cache t.producer_node))
  else
    emEvaluateImpl ctx fuel
      { em with stats := { em.stats with cache_misses := em.stats.cache_misses + 1 } } t

/-- Tensor::eval_impl (src/src/Tensor.cpp lines 543-584): already
materialized or evaluation-in-progress tensors return unchanged; otherwise
the in-progress flag guards the call into the evaluation manager; on
success the tensor becomes MATERIALIZED with the evaluated buffer copied in
(memcpy of numel floats); on a null result or a propagating kernel failure
the flag is restored and the tensor is left in its Lazy state. -/
def tensorEvalImpl (ctx : Context) (fuel : Nat) (em : EMState) (t : Tensor) :
    EMState × Tensor × Option EvalErr :=
  if t.is_materialized then (em, t, none)
  else if t.eval_in_progress then (em, t, none)
  else
    let r := emEvaluate ctx fuel em { t with eval_in_progress := true }
    match r.2 with
    | .error e => (r.1, t, some e)
    | .ok none => (r.1, t, some .nullResult)
    | .ok (some evaluated) =>
      (r.1,
       { t with
         state := TensorState.materialized,
         data := (List.range t.totalElements).map (fun i => bufGet evaluated.data i) },
       none)

end TTLazy

namespace TTLazy

/-! ### Claim-side notions: graph edges, reachability, and the
specified minimum-NodeId Kahn ordering -/

/-- The lazy-input edge relation the Context walks: p is the producer of a
walkable (non-constant, producer-bearing) input of node c. -/
def ctxEdge (ctx : Context) (p c : Nat) : Prop :=
  p ∈ ctxParents ctx c

/-- A nonempty producer-to-consumer chain p -> ... -> c of ctxEdge steps,
read from the producer end. -/
inductive CtxPathPlus (ctx : Context) : Nat → Nat → Prop where
  | single {p c : Nat} : ctxEdge ctx p c → CtxPathPlus ctx p c
  | step {p q t : Nat} : ctxEdge ctx p q → CtxPathPlus ctx q t → CtxPathPlus ctx p t

/-- Reachability along the lazy-input lists recorded in the tape entries,
starting at a and repeatedly following the inputs of the first entry with
the current id (the notion of reverse-reachability the DCE claim uses). -/
inductive DceReach (ops : List TapeOperation) : Nat → Nat → Prop where
  | refl (a : Nat) : DceReach ops a a
  | step {a b p : Nat} : DceReach ops a b → p ∈ dceInputs ops b → DceReach ops a p

/-- Reachable from some producer of a lazy root. -/
def DceReachable (ops : List TapeOperation) (outputs : List Tensor) (x : Nat) :
    Prop :=
  ∃ r ∈ lazyRootIds outputs, DceReach ops r x

/-- Modeled from the spec (section 4.4, step 2): the reference topological
order that repeatedly extracts the minimum NodeId among the currently
zero-in-degree nodes.  Used only to compare the specified deterministic
tie-break against the embedded FIFO implementation. -/
def specMinKahnLoop (g : List (Nat × List Nat)) :
    Nat → List (Nat × Int) → List Nat
  | 0, _ => []
  | fuel + 1, indeg =>
    let ready := (indeg.filter (fun kv => kv.2 == 0)).map (·.1)
    match ready.min? with
    | none => []
    | some m =>
      let indeg2 := indeg.filter (fun kv => kv.1 != m)
      let indeg3 := (adjGet g m).foldl
        (fun a nb => alSet a nb (alGet a nb 0 - 1)) indeg2
      m :: specMinKahnLoop g fuel indeg3

/-- Modeled from the spec: minimum-extraction Kahn sort over the same
in-degree structure the implementation builds. -/
def specMinKahn (ctx : Context) (nodes : List Nat) (fuel : Nat) : List Nat :=
  let built := kahnBuild ctx nodes
  specMinKahnLoop built.1 fuel built.2

/-! ### Concrete fixtures used by witnesses and counterexamples.

The graphs mirror what the user-facing constructors of
src/operations/operations.cpp build: constants are Tensor(void ptr, shape)
handles, each operation node records its inputs in order, and the returned
handle is a lazy tensor naming the freshly minted node id. -/

/-- a 2x2 constant filled with 2 (spec scenario 2). -/
def constA : Tensor := Tensor.constOf [2, 2, 2, 2] [2, 2]

/-- a 2x2 constant filled with 3. -/
def constW : Tensor := Tensor.constOf [3, 3, 3, 3] [2, 2]

/-- a 1x2 bias constant. -/
def constB : Tensor := Tensor.constOf [1, 1] [1, 2]

/-- node 1: MatMul(constA, constW). -/
def node1 : Node :=
  { id := 1, type_id := .matmul, inputs := [constA, constW],
    args := OpArgs.make .matmul {} }

/-- the lazy handle returned by matmul (rank-2 shape from the constructor). -/
def t1 : Tensor := Tensor.lazyOf 1 0 [2, 2]

/-- node 2: Add(t1, constB). -/
def node2 : Node :=
  { id := 2, type_id := .add, inputs := [t1, constB],
    args := OpArgs.make .add {} }

/-- the lazy handle returned by add (the constructor always passes a
4-entry shape list). -/
def t2 : Tensor := Tensor.lazyOf 2 0 [2, 2, 1, 1]

/-- node 3 of the second fusion scenario: ReLU(t1), a second consumer of
the MatMul output. -/
def node3 : Node :=
  { id := 3, type_id := .relu, inputs := [t1],
    args := OpArgs.make .relu {} }

def t3 : Tensor := Tensor.lazyOf 3 0 [2, 2, 1, 1]

/-- MatMul feeding a single Add: the first fusion scenario. -/
def ctxA : Context := ⟨[node1, node2]⟩

/-- MatMul feeding Add and ReLU: the second fusion scenario. -/
def ctxB : Context := ⟨[node1, node2, node3]⟩

/-- node 3 of the tie-break scenario: an independent second MatMul over
constants (ready from the start, unlike node 2). -/
def node3i : Node :=
  { id := 3, type_id := .matmul, inputs := [constA, constW],
    args := OpArgs.make .matmul {} }

def t3i : Tensor := Tensor.lazyOf 3 0 [2, 2]

/-- Tie-break scenario: 1 and 3 are initially ready, 2 becomes ready after
1 executes. -/
def ctx6 : Context := ⟨[node1, node2, node3i]⟩

/-- the reduce_sum input [[1,2,3],[4,5,6]] (spec scenario 4). -/
def redInput : Tensor := Tensor.constOf [1, 2, 3, 4, 5, 6] [2, 3]

/-- node 1 of the reduce scenario: Reduce with dims = {1}, keepdim = false,
kind Sum recorded in its args. -/
def nodeR : Node :=
  { id := 1, type_id := .reduce, inputs := [redInput],
    args := OpArgs.make .reduce { dims := [1], keepdim := false, rkind := .sum } }

def ctxR : Context := ⟨[nodeR]⟩

/-- the lazy reduce_sum result handle (constructor shape {2,1,1,1}). -/
def rootR : Tensor := Tensor.lazyOf 1 0 [2, 1, 1, 1]

/-- a materialized NON-constant tensor built by Tensor(shape, data). -/
def dataT : Tensor := Tensor.ofShapeData [2] [1, 2]

/-- an Add node one of whose inputs is the materialized non-constant
handle dataT. -/
def nodeAddBad : Node :=
  { id := 1, type_id := .add, inputs := [dataT, constB],
    args := OpArgs.make .add {} }

def ctx8 : Context := ⟨[nodeAddBad]⟩

def t8 : Tensor := Tensor.lazyOf 1 0 [2, 1, 1, 1]

end TTLazy

namespace TTLazy

/-! ### Shared helper lemmas -/

/-- Reading an index out of a buffer produced by mapping f over 0..n-1. -/
theorem bufGet_map_range (n j : Nat) (f : Nat → Int) :
    bufGet ((List.range n).map f) j = if j < n then f j else 0 := by
  rcases lt_or_ge j n with h | h
  · rw [bufGet, List.getD_eq_getElem?_getD, List.getElem?_map, List.getElem?_range h]
    simp [h]
  · rw [bufGet, List.getD_eq_getElem?_getD, List.getElem?_map]
    rw [List.getElem?_eq_none (by simpa using h)]
    simp [Nat.not_lt.mpr h]

/-- The conditional push_back loops of create_tape_operation compute a
filtered map. -/
theorem foldl_push_if {α β : Type} (f : α → Bool) (g : α → β) :
    ∀ (l : List α) (acc : List β),
      l.foldl (fun acc t => if f t then acc ++ [g t] else acc) acc
        = acc ++ (l.filter f).map g := by
  intro l
  induction l with
  | nil => simp
  | cons x xs ih =>
    intro acc
    by_cases hx : f x
    · simp [hx, ih, List.filter_cons]
    · simp [hx, ih, List.filter_cons]

/-! ### C10 -/

/-- C10: Tensor::size is total: for a tensor constructed with a given shape
(rank at most 4), size d returns the d-th shape entry for d below the rank
and returns 1, rather than failing, for any d at or above the rank. -/
theorem C10_size_total (shape : List Nat) (data : List Int) (d : Nat)
    (_hlen : shape.length ≤ 4) :
    (d < shape.length →
      (Tensor.ofShapeData shape data).size d = shape.getD d 1) ∧
    (shape.length ≤ d → (Tensor.ofShapeData shape data).size d = 1) := by
  constructor
  · intro hd
    simp only [Tensor.ofShapeData, Tensor.size, mkShape4]
    rw [if_pos hd]
    exact List.getD_append _ _ _ _ hd
  · intro hd
    simp only [Tensor.ofShapeData, Tensor.size]
    rw [if_neg (by omega)]

/-- Witness for C10 at shape [2,3], d = 1 (in range) for a concrete tensor. -/
theorem C10_size_total_witness :
    (([2, 3] : List Nat).length ≤ 4) ∧
    (1 < ([2, 3] : List Nat).length →
      (Tensor.ofShapeData [2, 3] [1, 2, 3, 4, 5, 6]).size 1 = ([2, 3] : List Nat).getD 1 1) ∧
    (([2, 3] : List Nat).length ≤ 1 →
      (Tensor.ofShapeData [2, 3] [1, 2, 3, 4, 5, 6]).size 1 = 1) :=
  ⟨by decide,
   (C10_size_total [2, 3] [1, 2, 3, 4, 5, 6] 1 (by decide)).1,
   (C10_size_total [2, 3] [1, 2, 3, 4, 5, 6] 1 (by decide)).2⟩

/-! ### C9 -/

/-- C9: the OpArgs round trip.  make of a payload of kind k stores kind k;
try_cast at the same kind succeeds with the stored payload value; try_cast
at any other registered kind is the null miss (the container itself is a
value and the operation does not modify it). -/
theorem C9_opargs_roundtrip (k : OpKind) (v : PayloadOf k) :
    OpArgs.tryCast k (OpArgs.make k v) = some v ∧
    (OpArgs.make k v).typeId = some k ∧
    ∀ k2 : OpKind, k2 ≠ k → OpArgs.tryCast k2 (OpArgs.make k v) = none := by
  refine ⟨?_, rfl, ?_⟩
  · show (if h : k = k then some (h ▸ v) else none) = some v
    rw [dif_pos rfl]
  · intro k2 hne
    simp only [OpArgs.tryCast, OpArgs.make]
    rw [dif_neg (fun h => hne h.symm)]

/-- Witness for C9 with a MatMulArgs payload cast at matmul and at add. -/
theorem C9_opargs_roundtrip_witness :
    (OpKind.add ≠ OpKind.matmul) ∧
    OpArgs.tryCast .matmul (OpArgs.make .matmul {}) = some ({} : MatMulArgs) ∧
    OpArgs.tryCast .add (OpArgs.make .matmul {}) = none :=
  ⟨by decide,
   (C9_opargs_roundtrip .matmul {}).1,
   (C9_opargs_roundtrip .matmul {}).2.2 .add (by decide)⟩

/-! ### C4 -/

/-- C4 (amended): the lowered entry's lazy-input list is exactly the
producer ids of the inputs whose state is lazy, in order, and its
constant-input list is exactly the by-value copies of the inputs whose
is_constant flag is set, in order; every lazy or constant-flagged input is
accounted for, and nothing else enters either list.  (An input that is
materialized but not constant-flagged appears in neither list; see the
counterexample.) -/
theorem C4_lowering_inputs (n : Node) :
    (createTapeOperation n).input_nodes
        = (n.inputs.filter Tensor.is_lazy).map Tensor.producer_node ∧
    (createTapeOperation n).constant_inputs = n.inputs.filter Tensor.is_constant ∧
    (∀ t ∈ n.inputs, t.is_lazy →
      t.producer_node ∈ (createTapeOperation n).input_nodes) ∧
    (∀ t ∈ n.inputs, t.is_constant → t ∈ (createTapeOperation n).constant_inputs) ∧
    (∀ id ∈ (createTapeOperation n).input_nodes,
      ∃ t ∈ n.inputs, t.is_lazy ∧ t.producer_node = id) ∧
    (∀ t ∈ (createTapeOperation n).constant_inputs,
      t ∈ n.inputs ∧ t.is_constant) := by
  have h1 : (createTapeOperation n).input_nodes
      = (n.inputs.filter Tensor.is_lazy).map Tensor.producer_node := by
    simpa using foldl_push_if Tensor.is_lazy Tensor.producer_node n.inputs []
  have h2 : (createTapeOperation n).constant_inputs
      = n.inputs.filter Tensor.is_constant := by
    simpa using foldl_push_if Tensor.is_constant id n.inputs []
  refine ⟨h1, h2, ?_, ?_, ?_, ?_⟩
  · intro t ht hl
    rw [h1]
    exact List.mem_map_of_mem _ (List.mem_filter.mpr ⟨ht, hl⟩)
  · intro t ht hc
    rw [h2]
    exact List.mem_filter.mpr ⟨ht, hc⟩
  · intro id hid
    rw [h1] at hid
    obtain ⟨t, ht, rfl⟩ := List.mem_map.mp hid
    exact ⟨t, (List.mem_filter.mp ht).1, (List.mem_filter.mp ht).2, rfl⟩
  · intro t ht
    rw [h2] at ht
    exact ⟨(List.mem_filter.mp ht).1, (List.mem_filter.mp ht).2⟩

/-- Counterexample to C4 as stated: the Add node whose first input is the
materialized NON-constant handle dataT (built by the Tensor(shape, data)
constructor).  The input's state is non-lazy, yet the lowered entry's
constant-input list does not contain it: the entry has no lazy inputs and
only the genuinely constant-flagged bias in its constant list, so this
input is accounted for by neither list. -/
theorem C4_lowering_counterexample :
    dataT ∈ nodeAddBad.inputs ∧
    dataT.is_lazy = false ∧
    dataT.is_constant = false ∧
    dataT ∉ (createTapeOperation nodeAddBad).constant_inputs ∧
    (createTapeOperation nodeAddBad).input_nodes = [] ∧
    (createTapeOperation nodeAddBad).constant_inputs = [constB] := by
  decide

end TTLazy

namespace TTLazy

/-! ### C5 -/

/-- The broadcast of a [N,M] shape with the [1,M] bias shape always
succeeds, yielding [max N 1, M]. -/
theorem broadcastShapes_bias (N M : Nat) :
    broadcastShapes [N, M] [1, M] = some [max N 1, M] := by
  simp [broadcastShapes, bcDim, List.range_succ]

/-- C5 (amended): for tensors of shape [N,M] and [1,M] the cited
math::add succeeds precisely when N = 1 (the shapes are then equal and it
computes the row-wise bias addition); for N above 1 the broadcast is
accepted by the shape check but the kernel throws its
broadcasting-not-fully-implemented error instead of computing the bias
form. -/
theorem C5_add_bias (N M : Nat) (a b : Tensor)
    (ha : a.shapeList = [N, M]) (hb : b.shapeList = [1, M]) :
    (N = 1 → ∃ out, mathAdd a b = .ok out ∧ out.shapeList = [1, M] ∧
      out.data.length = M ∧
      ∀ i j : Nat, i < N → j < M →
        bufGet out.data (i * M + j) = bufGet a.data (i * M + j) + bufGet b.data j) ∧
    (1 < N → mathAdd a b = .error .broadcastAddNotImplemented) := by
  have htot : a.totalElements = a.shapeList.prod := rfl
  constructor
  · rintro rfl
    have hM : a.totalElements = M := by rw [htot, ha]; simp
    have hok : mathAdd a b = .ok { Tensor.ofShape [1, M] with
        data := (List.range a.totalElements).map
          (fun i => bufGet a.data i + bufGet b.data i) } := by
      simp only [mathAdd, ha, hb, broadcastShapes_bias]
      simp
    refine ⟨_, hok, rfl, ?_, ?_⟩
    · simp [hM]
    · intro i j hi hj
      interval_cases i
      simp only [Nat.zero_mul, Nat.zero_add]
      rw [bufGet_map_range, if_pos (by omega : j < a.totalElements)]
  · intro hN
    simp only [mathAdd, ha, hb, broadcastShapes_bias]
    have hne : ([N, M] : List Nat) ≠ [1, M] := by
      intro h
      injection h with h1 _
      omega
    simp [hne]

/-- Counterexample to C5 as stated: at N = 2 (a 2x2 plus a 1x2 bias) the
cited kernel does not succeed; it reports the unimplemented-broadcast
failure. -/
theorem C5_add_bias_counterexample :
    (Tensor.ofShapeData [2, 2] [1, 2, 3, 4]).shapeList = [2, 2] ∧
    (Tensor.ofShapeData [1, 2] [10, 20]).shapeList = [1, 2] ∧
    mathAdd (Tensor.ofShapeData [2, 2] [1, 2, 3, 4])
        (Tensor.ofShapeData [1, 2] [10, 20])
      = .error .broadcastAddNotImplemented := by
  refine ⟨by decide, by decide, ?_⟩
  rfl

/-- Witness for C5 at N = 1, M = 2 with concrete buffers. -/
theorem C5_add_bias_witness :
    ((Tensor.ofShapeData [1, 2] [1, 2]).shapeList = [1, 2]) ∧
    ((Tensor.ofShapeData [1, 2] [10, 20]).shapeList = [1, 2]) ∧
    ((1 = 1 → ∃ out,
        mathAdd (Tensor.ofShapeData [1, 2] [1, 2]) (Tensor.ofShapeData [1, 2] [10, 20])
          = .ok out ∧
        out.shapeList = [1, 2] ∧ out.data.length = 2 ∧
        ∀ i j : Nat, i < 1 → j < 2 →
          bufGet out.data (i * 2 + j)
            = bufGet (Tensor.ofShapeData [1, 2] [1, 2]).data (i * 2 + j)
              + bufGet (Tensor.ofShapeData [1, 2] [10, 20]).data j) ∧
      (1 < 1 →
        mathAdd (Tensor.ofShapeData [1, 2] [1, 2]) (Tensor.ofShapeData [1, 2] [10, 20])
          = .error .broadcastAddNotImplemented)) :=
  ⟨by decide, by decide,
   C5_add_bias 1 2 (Tensor.ofShapeData [1, 2] [1, 2])
     (Tensor.ofShapeData [1, 2] [10, 20]) (by decide) (by decide)⟩

/-! ### C2 -/

/-- C2: with optimization enabled, compiling the MatMul-into-single-Add
graph does NOT produce a one-entry FusedMLP tape: MLPFusionPass::apply
returns before its rewriting code (which sits below an early return), so no
entry of the compiled tape is FusedMLP and the tape keeps its two entries
MatMul then Add; the second-consumer variant keeps its three entries.  The
last conjunct records that the pass is the identity on every tape. -/
theorem C2_fusion_disabled :
    (generateTape ctxA [t2] true 16).map (fun op => (op.node_id, op.op_type))
      = [(1, .matmul), (2, .add)] ∧
    (generateTape ctxA [t2] true 16).length = 2 ∧
    (∀ op ∈ generateTape ctxA [t2] true 16, op.op_type ≠ .fusedMLP) ∧
    (generateTape ctxB [t2, t3] true 16).map (fun op => (op.node_id, op.op_type))
      = [(1, .matmul), (2, .add), (3, .relu)] ∧
    (∀ (ops : List TapeOperation) (outputs : List Tensor),
      mlpFusionApply ops outputs = (ops, 0)) :=
  ⟨by decide, by decide, by decide, by decide, fun _ _ => rfl⟩

/-! ### C3 -/

/-- C3: running reduce_sum of [[1,2,3],[4,5,6]] with dims = {1},
keepdim = false through the tape pipeline does NOT produce [6,15]: the
handler ignores the ReduceArgs stored on the node and hard-codes dims = {0},
whose reduction is itself unimplemented and falls through to the
sum-everything branch, so the published buffer has shape {3} with data
[21,0,0].  The kernel alone, called with the recorded dims = {1}, does
return [6,15] with shape {2} - the divergence is in the handler. -/
theorem C3_reduce_dims_ignored :
    (executeTape ctxR (generateTape ctxR [rootR] true 16) []).2.2 = none ∧
    (getResult (executeTape ctxR (generateTape ctxR [rootR] true 16) []).2.1 1).map
      (fun t => (t.shapeList, t.data)) = some ([3], [21, 0, 0]) ∧
    (mathReduceSum redInput [1] false).data = [6, 15] ∧
    (mathReduceSum redInput [1] false).shapeList = [2] := by
  refine ⟨by decide, by decide, by decide, by decide⟩

/-! ### C6 -/

/-- Counterexample to C6 as stated: in the graph where nodes 1 and 3 are
initially ready and node 2 (consumer of node 1) becomes ready after node 1
is emitted, the implementation schedules [1,3,2], while the claimed
smaller-NodeId tie-break (the minimum-extraction reference order modeled
from the spec) schedules [1,2,3]: after node 1 both 2 and 3 are ready and
the smaller id 2 should come first. -/
theorem C6_tiebreak_counterexample :
    collectDependencies ctx6 [t2, t3i] 16 = [1, 2, 3] ∧
    tgTopologicalSort ctx6 [1, 2, 3] 16 = [1, 3, 2] ∧
    specMinKahn ctx6 [1, 2, 3] 16 = [1, 2, 3] ∧
    tgTopologicalSort ctx6 [1, 2, 3] 16 ≠ specMinKahn ctx6 [1, 2, 3] 16 := by
  refine ⟨by decide, by decide, by decide, by decide⟩

/-- C6 (amended): the tie-break of TapeGenerator::topological_sort is FIFO
queue order, not smallest NodeId: whatever is already enqueued is emitted
first, in queue order, before any node that becomes ready later (newly
readied nodes join the back of the queue); the embedded sort is a pure
function of the graph, so two runs on the same graph (under the same
container iteration order) produce the same schedule. -/
theorem C6_fifo_order (g : List (Nat × List Nat)) :
    ∀ (fuel : Nat) (q : List Nat) (indeg : List (Nat × Int)),
      ∃ rest, kahnLoop g fuel q indeg = q.take fuel ++ rest := by
  intro fuel
  induction fuel with
  | zero =>
    intro q indeg
    exact ⟨[], by simp [kahnLoop]⟩
  | succ n ih =>
    intro q indeg
    cases q with
    | nil => exact ⟨[], by simp [kahnLoop]⟩
    | cons c qs =>
      obtain ⟨r2, h⟩ := ih (qs ++ (kahnStep g c indeg).2) (kahnStep g c indeg).1
      refine ⟨(kahnStep g c indeg).2.take (n - qs.length) ++ r2, ?_⟩
      simp only [kahnLoop]
      rw [h, List.take_append_eq_append_take]
      simp [List.take_succ_cons, List.append_assoc]

end TTLazy

namespace TTLazy

/-! ### C8 -/

/-- C8: when a kernel handler fails during tape execution, the error
propagates out of the evaluate call (as the same kernel failure), the
root tensor is returned unchanged with its lifecycle state still Lazy, and
the evaluation cache is exactly what it was before the call (the caching
loop of evaluate_impl never runs on the failure path; only the executor's
internal result map keeps the partial results). -/
theorem C8_kernel_failure (ctx : Context) (fuel : Nat) (em : EMState)
    (t : Tensor)
    (hlazy : t.state = .lazy)
    (hflag : t.eval_in_progress = false)
    (hmiss : cacheGet em.cache t.producer_node = none)
    (e : ExecErr)
    (hfail : (executeTape ctx
        (generateTape ctx [{ t with eval_in_progress := true }] true fuel)
        em.execResults).2.2 = some e) :
    (tensorEvalImpl ctx fuel em t).2.2 = some (.execFailed e) ∧
    (tensorEvalImpl ctx fuel em t).2.1 = t ∧
    (tensorEvalImpl ctx fuel em t).2.1.state = .lazy ∧
    (tensorEvalImpl ctx fuel em t).1.cache = em.cache := by
  have hmat : t.is_materialized = false := by
    simp [Tensor.is_materialized, hlazy]
  have hmat2 : Tensor.is_materialized { t with eval_in_progress := true } = false := by
    simp [Tensor.is_materialized, hlazy]
  have hlz2 : Tensor.is_lazy { t with eval_in_progress := true } = true := by
    simp [Tensor.is_lazy, hlazy]
  have hEval : tensorEvalImpl ctx fuel em t =
      (({ em with
          stats := { em.stats with cache_misses := em.stats.cache_misses + 1 },
          execResults := (executeTape ctx
            (generateTape ctx [{ t with eval_in_progress := true }] true fuel)
            em.execResults).2.1 } : EMState),
        t, some (.execFailed e)) := by
    rw [tensorEvalImpl]
    rw [if_neg (by simp [hmat]), if_neg (by simp [hflag])]
    rw [emEvaluate]
    rw [if_neg (by simp [hmat2])]
    rw [if_neg (by simp [hlz2, hmiss])]
    rw [emEvaluateImpl]
    rw [if_neg (by simp [needsEvaluation, hmat2, hlz2, hmiss])]
    simp only [hfail]
  rw [hEval]
  exact ⟨rfl, rfl, hlazy, rfl⟩

/-- Witness for C8: the Add node whose dropped materialized non-constant
input leaves the handler with one argument, failing the arity check; the
evaluation of the lazy root propagates the failure, leaves the root Lazy,
and leaves the (empty) cache untouched. -/
theorem C8_kernel_failure_witness :
    (t8.state = .lazy) ∧ (t8.eval_in_progress = false) ∧
    (cacheGet ({} : EMState).cache t8.producer_node = none) ∧
    ((executeTape ctx8
        (generateTape ctx8 [{ t8 with eval_in_progress := true }] true 16)
        ({} : EMState).execResults).2.2 = some (.arityMismatch 2 1)) ∧
    ((tensorEvalImpl ctx8 16 {} t8).2.2
        = some (.execFailed (.arityMismatch 2 1)) ∧
      (tensorEvalImpl ctx8 16 {} t8).2.1 = t8 ∧
      (tensorEvalImpl ctx8 16 {} t8).2.1.state = .lazy ∧
      (tensorEvalImpl ctx8 16 {} t8).1.cache = ({} : EMState).cache) :=
  ⟨by decide, by decide, by decide, by decide,
   C8_kernel_failure ctx8 16 {} t8 (by decide) (by decide) (by decide)
     (.arityMismatch 2 1) (by decide)⟩

end TTLazy

namespace TTLazy

/-- The finite universe of ids the DCE walk can ever insert: the producers
of the lazy roots together with every id appearing in some entry's
lazy-input list. -/
def dceUniv (ops : List TapeOperation) (outputs : List Tensor) : Finset Nat :=
  (lazyRootIds outputs).toFinset ∪ ((ops.map TapeOperation.input_nodes).flatten).toFinset

theorem mem_dceUniv_of_input (ops : List TapeOperation) (outputs : List Tensor)
    (c y : Nat) (hy : y ∈ dceInputs ops c) : y ∈ dceUniv ops outputs := by
  rw [dceInputs] at hy
  rcases hfind : ops.find? (fun op => op.node_id == c) with _ | op
  · rw [hfind] at hy
    simp at hy
  · rw [hfind] at hy
    have hop : op ∈ ops := List.mem_of_find?_eq_some hfind
    rw [dceUniv]
    apply Finset.mem_union_right
    rw [List.mem_toFinset, List.mem_flatten]
    exact ⟨op.input_nodes, List.mem_map_of_mem _ hop, hy⟩

theorem mem_dceUniv_of_root (ops : List TapeOperation) (outputs : List Tensor)
    (r : Nat) (hr : r ∈ lazyRootIds outputs) : r ∈ dceUniv ops outputs := by
  rw [dceUniv]
  exact Finset.mem_union_left _ (List.mem_toFinset.mpr hr)

/-- Monotonicity: the DFS only grows the required set. -/
theorem dceVisit_mono (ops : List TapeOperation) :
    ∀ (fuel id : Nat) (req : Finset Nat), req ⊆ dceVisit ops fuel id req := by
  intro fuel
  induction fuel with
  | zero =>
    intro id req
    simp [dceVisit]
  | succ n ih =>
    intro id req
    rw [dceVisit]
    split
    · exact Finset.Subset.refl _
    · have hfold : ∀ (ids : List Nat) (r : Finset Nat),
          r ⊆ ids.foldl (fun r p => dceVisit ops n p r) r := by
        intro ids
        induction ids with
        | nil => intro r; simp
        | cons p ps ihl =>
          intro r
          rw [List.foldl_cons]
          exact (ih p r).trans (ihl _)
      exact (Finset.subset_insert id req).trans (hfold _ _)

/-- The fold over a list of ids only grows the set. -/
theorem dceFold_subset (ops : List TapeOperation) (fuel : Nat) :
    ∀ (ids : List Nat) (r : Finset Nat),
      r ⊆ ids.foldl (fun r p => dceVisit ops fuel p r) r := by
  intro ids
  induction ids with
  | nil => intro r; simp
  | cons p ps ihl =>
    intro r
    rw [List.foldl_cons]
    exact (dceVisit_mono ops fuel p r).trans (ihl _)

/-- With at least one unit of fuel the visited id lands in the set. -/
theorem dceVisit_ensures (ops : List TapeOperation) (fuel id : Nat)
    (req : Finset Nat) (hfuel : 1 ≤ fuel) : id ∈ dceVisit ops fuel id req := by
  cases fuel with
  | zero => omega
  | succ n =>
    rw [dceVisit]
    split
    · assumption
    · exact dceFold_subset ops n _ _ (Finset.mem_insert_self id req)

theorem dceReach_trans (ops : List TapeOperation) {a b c : Nat}
    (h1 : DceReach ops a b) (h2 : DceReach ops b c) : DceReach ops a c := by
  induction h2 with
  | refl => exact h1
  | step _ hp ih => exact .step ih hp

/-- Soundness: everything the DFS adds is reachable from the start id. -/
theorem dceVisit_sound (ops : List TapeOperation) :
    ∀ (fuel id : Nat) (req : Finset Nat) (x : Nat),
      x ∈ dceVisit ops fuel id req → x ∈ req ∨ DceReach ops id x := by
  intro fuel
  induction fuel with
  | zero =>
    intro id req x hx
    left
    simpa [dceVisit] using hx
  | succ n ih =>
    intro id req x hx
    rw [dceVisit] at hx
    split at hx
    · left; exact hx
    · have hfold : ∀ (ids : List Nat) (r : Finset Nat) (x : Nat),
          x ∈ ids.foldl (fun r p => dceVisit ops n p r) r →
          x ∈ r ∨ ∃ p ∈ ids, DceReach ops p x := by
        intro ids
        induction ids with
        | nil =>
          intro r x h
          left
          simpa using h
        | cons p ps ihl =>
          intro r x h
          rw [List.foldl_cons] at h
          rcases ihl _ x h with h1 | ⟨q, hq, hr⟩
          · rcases ih p r x h1 with h2 | h2
            · left; exact h2
            · right; exact ⟨p, by simp, h2⟩
          · right; exact ⟨q, by simp [hq], hr⟩
      rcases hfold _ _ x hx with h1 | ⟨p, hp, hr⟩
      · rcases Finset.mem_insert.mp h1 with rfl | h2
        · right; exact .refl x
        · left; exact h2
      · right
        exact dceReach_trans ops (DceReach.step (DceReach.refl id) hp) hr

/-- Closure of the newly added ids: with fuel above the number of
never-seen universe ids, every id the DFS adds has its whole lazy-input
list in the final set. -/
theorem dceVisit_newClosed (ops : List TapeOperation) (U : Finset Nat)
    (hU : ∀ c y, y ∈ dceInputs ops c → y ∈ U) :
    ∀ (fuel id : Nat) (req : Finset Nat), id ∈ U → (U \ req).card < fuel →
      ∀ x ∈ dceVisit ops fuel id req, x ∉ req →
        ∀ y ∈ dceInputs ops x, y ∈ dceVisit ops fuel id req := by
  intro fuel
  induction fuel with
  | zero =>
    intro id req _ hcard
    exact absurd hcard (Nat.not_lt_zero _)
  | succ n ih =>
    intro id req hidU hcard x hx hxreq y hy
    by_cases hid : id ∈ req
    · rw [dceVisit, if_pos hid] at hx
      exact absurd hx hxreq
    · rw [dceVisit, if_neg hid] at hx ⊢
      have hcard1 : (U \ insert id req).card < n := by
        have h1 : U \ insert id req ⊆ U \ req :=
          Finset.sdiff_subset_sdiff (Finset.Subset.refl U) (Finset.subset_insert id req)
        have h2 : id ∈ U \ req := Finset.mem_sdiff.mpr ⟨hidU, hid⟩
        have h3 : id ∉ U \ insert id req := by simp
        have h4 : (U \ insert id req).card < (U \ req).card :=
          Finset.card_lt_card ((Finset.ssubset_iff_of_subset h1).mpr ⟨id, h2, h3⟩)
        omega
      have hn1 : 1 ≤ n := by
        have := Nat.zero_le (U \ insert id req).card
        omega
      have hfold : ∀ (ids : List Nat), (∀ p ∈ ids, p ∈ U) →
          ∀ (r : Finset Nat), (U \ r).card < n →
            (∀ x ∈ ids.foldl (fun r p => dceVisit ops n p r) r, x ∉ r →
              ∀ y ∈ dceInputs ops x, y ∈ ids.foldl (fun r p => dceVisit ops n p r) r)
            ∧ (∀ p ∈ ids, p ∈ ids.foldl (fun r p => dceVisit ops n p r) r) := by
        intro ids
        induction ids with
        | nil =>
          intro _ r _
          refine ⟨?_, ?_⟩
          · intro x hx hxr
            simp only [List.foldl_nil] at hx
            exact absurd hx hxr
          · intro p hp
            simp at hp
        | cons p ps ihl =>
          intro hpsU r hcr
          have hpU : p ∈ U := hpsU p (by simp)
          have hmono : r ⊆ dceVisit ops n p r := dceVisit_mono ops n p r
          have hcr2 : (U \ dceVisit ops n p r).card < n := by
            have hsub : U \ dceVisit ops n p r ⊆ U \ r :=
              Finset.sdiff_subset_sdiff (Finset.Subset.refl U) hmono
            have := Finset.card_le_card hsub
            omega
          obtain ⟨ha2, hb2⟩ := ihl (fun q hq => hpsU q (by simp [hq])) _ hcr2
          refine ⟨?_, ?_⟩
          · intro x hx hxr y2 hy2
            rw [List.foldl_cons] at hx ⊢
            by_cases hxr2 : x ∈ dceVisit ops n p r
            · have hclose := ih p r hpU hcr x hxr2 hxr y2 hy2
              exact dceFold_subset ops n ps _ hclose
            · exact ha2 x hx hxr2 y2 hy2
          · intro q hq
            rw [List.foldl_cons]
            rcases List.mem_cons.mp hq with rfl | hq2
            · exact dceFold_subset ops n ps _ (dceVisit_ensures ops n q r hn1)
            · exact hb2 q hq2
      obtain ⟨ha, hb⟩ := hfold (dceInputs ops id) (fun p hp => hU id p hp)
        (insert id req) hcard1
      by_cases hxid : x = id
      · subst hxid
        exact hb y hy
      · exact ha x hx (by simp [hxid, hxreq]) y hy

end TTLazy

namespace TTLazy

/-- Every producer of a lazy root lands in the required set. -/
theorem dceRequired_root (ops : List TapeOperation) (outputs : List Tensor)
    (fuel : Nat) (hfuel : 1 ≤ fuel) :
    ∀ r ∈ lazyRootIds outputs, r ∈ dceRequired ops outputs fuel := by
  have hfold : ∀ (roots : List Nat) (acc : Finset Nat) (r : Nat), r ∈ roots →
      r ∈ roots.foldl (fun req r => dceVisit ops fuel r req) acc := by
    intro roots
    induction roots with
    | nil => intro acc r hr; simp at hr
    | cons p ps ihl =>
      intro acc r hr
      rw [List.foldl_cons]
      rcases List.mem_cons.mp hr with rfl | hr2
      · exact dceFold_subset ops fuel ps _ (dceVisit_ensures ops fuel r acc hfuel)
      · exact ihl _ r hr2
  intro r hr
  exact hfold _ _ r hr

/-- With enough fuel the required set is closed under lazy-input edges. -/
theorem dceRequired_closed (ops : List TapeOperation) (outputs : List Tensor)
    (fuel : Nat) (hfuel : (dceUniv ops outputs).card < fuel) :
    ∀ x ∈ dceRequired ops outputs fuel,
      ∀ y ∈ dceInputs ops x, y ∈ dceRequired ops outputs fuel := by
  have hU := mem_dceUniv_of_input ops outputs
  have hfold : ∀ (roots : List Nat), (∀ r ∈ roots, r ∈ dceUniv ops outputs) →
      ∀ (acc : Finset Nat), (dceUniv ops outputs \ acc).card < fuel →
      (∀ x ∈ acc, ∀ y ∈ dceInputs ops x, y ∈ acc) →
      ∀ x ∈ roots.foldl (fun req r => dceVisit ops fuel r req) acc,
        ∀ y ∈ dceInputs ops x,
          y ∈ roots.foldl (fun req r => dceVisit ops fuel r req) acc := by
    intro roots
    induction roots with
    | nil =>
      intro _ acc _ hclosed x hx y hy
      rw [List.foldl_nil] at hx ⊢
      exact hclosed x hx y hy
    | cons p ps ihl =>
      intro hrootsU acc hcard hclosed x hx y hy
      rw [List.foldl_cons] at hx ⊢
      have hpU : p ∈ dceUniv ops outputs := hrootsU p (by simp)
      have hmono : acc ⊆ dceVisit ops fuel p acc := dceVisit_mono ops fuel p acc
      have hcard2 : (dceUniv ops outputs \ dceVisit ops fuel p acc).card < fuel := by
        have hsub : dceUniv ops outputs \ dceVisit ops fuel p acc
            ⊆ dceUniv ops outputs \ acc :=
          Finset.sdiff_subset_sdiff (Finset.Subset.refl _) hmono
        have := Finset.card_le_card hsub
        omega
      have hclosed2 : ∀ x ∈ dceVisit ops fuel p acc,
          ∀ y ∈ dceInputs ops x, y ∈ dceVisit ops fuel p acc := by
        intro x hx y hy
        by_cases hxa : x ∈ acc
        · exact hmono (hclosed x hxa y hy)
        · exact dceVisit_newClosed ops (dceUniv ops outputs) (fun c z => hU c z)
            fuel p acc hpU hcard x hx hxa y hy
      exact ihl (fun q hq => hrootsU q (by simp [hq])) _ hcard2 hclosed2 x hx y hy
  intro x hx y hy
  refine hfold _ (fun r hr => mem_dceUniv_of_root ops outputs r hr) ∅ ?_ ?_ x hx y hy
  · simpa using hfuel
  · intro x hx
    simp at hx

/-- Soundness of the required set: everything in it is reachable from some
lazy-root producer. -/
theorem dceRequired_sound (ops : List TapeOperation) (outputs : List Tensor)
    (fuel : Nat) :
    ∀ x ∈ dceRequired ops outputs fuel,
      ∃ r ∈ lazyRootIds outputs, DceReach ops r x := by
  have hfold : ∀ (roots : List Nat) (acc : Finset Nat) (x : Nat),
      x ∈ roots.foldl (fun req r => dceVisit ops fuel r req) acc →
      x ∈ acc ∨ ∃ r ∈ roots, DceReach ops r x := by
    intro roots
    induction roots with
    | nil =>
      intro acc x hx
      left
      simpa using hx
    | cons p ps ihl =>
      intro acc x hx
      rw [List.foldl_cons] at hx
      rcases ihl _ x hx with h1 | ⟨r, hr, hreach⟩
      · rcases dceVisit_sound ops fuel p acc x h1 with h2 | h2
        · left; exact h2
        · right; exact ⟨p, by simp, h2⟩
      · right; exact ⟨r, by simp [hr], hreach⟩
  intro x hx
  rcases hfold _ ∅ x hx with h1 | h2
  · simp at h1
  · exact h2

/-- C7: after the dead-code-elimination pass with root set R, the remaining
entries are exactly the original entries whose NodeId is reachable from the
producers of the lazy roots by following the entries' lazy-input lists: the
pass output is the original list filtered by membership in the computed
required set, that set holds precisely the reachable ids, membership in the
output is membership in the input plus reachability, and the output is a
sublist (order-preserving selection) of the input. -/
theorem C7_dce_exact (ops : List TapeOperation) (outputs : List Tensor)
    (fuel : Nat) (hfuel : (dceUniv ops outputs).card < fuel) :
    (dceApply ops outputs fuel).1
      = ops.filter (fun op => decide (op.node_id ∈ dceRequired ops outputs fuel)) ∧
    (∀ id : Nat, id ∈ dceRequired ops outputs fuel ↔ DceReachable ops outputs id) ∧
    (∀ op, op ∈ (dceApply ops outputs fuel).1 ↔
      op ∈ ops ∧ DceReachable ops outputs op.node_id) ∧
    List.Sublist (dceApply ops outputs fuel).1 ops := by
  have hfuel1 : 1 ≤ fuel := by
    have := Nat.zero_le (dceUniv ops outputs).card
    omega
  have hiff : ∀ id : Nat, id ∈ dceRequired ops outputs fuel ↔
      DceReachable ops outputs id := by
    intro id
    constructor
    · intro h
      exact dceRequired_sound ops outputs fuel id h
    · rintro ⟨r, hr, hreach⟩
      induction hreach with
      | refl => exact dceRequired_root ops outputs fuel hfuel1 _ hr
      | step _ hp ih =>
        exact dceRequired_closed ops outputs fuel hfuel _ ih _ hp
  refine ⟨rfl, hiff, ?_, ?_⟩
  · intro op
    rw [dceApply]
    simp only [List.mem_filter, decide_eq_true_eq]
    constructor
    · rintro ⟨h1, h2⟩
      exact ⟨h1, (hiff op.node_id).mp h2⟩
    · rintro ⟨h1, h2⟩
      exact ⟨h1, (hiff op.node_id).mpr h2⟩
  · rw [dceApply]
    exact List.filter_sublist _

end TTLazy

namespace TTLazy

/-- Witness for C7: the three-entry tape of the MatMul-Add-ReLU graph with
only the Add output as root; DCE keeps the MatMul and Add entries and drops
the ReLU entry. -/
theorem C7_dce_exact_witness :
    ((dceUniv (generateTape ctxB [t2, t3] false 16) [t2]).card < 16) ∧
    ((dceApply (generateTape ctxB [t2, t3] false 16) [t2] 16).1
        = (generateTape ctxB [t2, t3] false 16).filter
            (fun op => decide (op.node_id
              ∈ dceRequired (generateTape ctxB [t2, t3] false 16) [t2] 16)) ∧
      (∀ id : Nat,
        id ∈ dceRequired (generateTape ctxB [t2, t3] false 16) [t2] 16 ↔
          DceReachable (generateTape ctxB [t2, t3] false 16) [t2] id) ∧
      (∀ op, op ∈ (dceApply (generateTape ctxB [t2, t3] false 16) [t2] 16).1 ↔
        op ∈ generateTape ctxB [t2, t3] false 16 ∧
          DceReachable (generateTape ctxB [t2, t3] false 16) [t2] op.node_id) ∧
      List.Sublist (dceApply (generateTape ctxB [t2, t3] false 16) [t2] 16).1
        (generateTape ctxB [t2, t3] false 16)) :=
  ⟨by decide, C7_dce_exact (generateTape ctxB [t2, t3] false 16) [t2] 16 (by decide)⟩

end TTLazy

namespace TTLazy

/-- Bookkeeping invariant of the DFS state: the result list enumerates the
visited set without duplicates. -/
def TInv (st : TopoState) : Prop :=
  st.result.Nodup ∧ st.result.toFinset = st.visited

/-- Ordering invariant: every recorded node has each of its in-set lazy
input producers recorded earlier. -/
def TClosed (ctx : Context) (ns : Finset Nat) (st : TopoState) : Prop :=
  ∀ c ∈ st.result, ∀ p, ctxEdge ctx p c → p ∈ ns → List.Sublist [p, c] st.result

/-- An error absorbs the rest of the inner fold. -/
theorem visitFold_error (ctx : Context) (ns : Finset Nat) (n : Nat)
    (ids : List Nat) (e : TopoErr) :
    ids.foldl
      (fun (s : Except TopoErr TopoState) p =>
        match s with
        | .error e => .error e
        | .ok st2 => visitCtx ctx ns n p st2)
      (.error e) = .error e := by
  induction ids with
  | nil => rfl
  | cons p ps ihl => simpa using ihl

/-- The basic facts preserved by every successful DFS visit: temp_visited is
restored exactly, visited only grows, the order list is extended at its end,
every newly visited id is an unmarked member of the node set, the visited id
itself (when in the set) ends up visited, and the bookkeeping and ordering
invariants are preserved. -/
theorem visitCtx_ok_props (ctx : Context) (ns : Finset Nat) :
    ∀ (fuel id : Nat) (st st' : TopoState),
      visitCtx ctx ns fuel id st = .ok st' →
      st'.temp = st.temp ∧
      st.visited ⊆ st'.visited ∧
      (∃ app, st'.result = st.result ++ app) ∧
      (∀ y ∈ st'.visited, y ∈ st.visited ∨ (y ∈ ns ∧ y ∉ st.temp)) ∧
      (id ∈ ns → id ∈ st'.visited) ∧
      (TInv st → TInv st') ∧
      (TInv st → TClosed ctx ns st → TClosed ctx ns st') := by
  intro fuel
  induction fuel with
  | zero =>
    intro id st st' h
    rw [visitCtx] at h
    exact absurd h (by simp)
  | succ n ih =>
    intro id st st' h
    by_cases h1 : id ∈ st.temp
    · rw [visitCtx, if_pos h1] at h
      exact absurd h (by simp)
    · by_cases h2 : id ∈ st.visited ∨ id ∉ ns
      · rw [visitCtx, if_neg h1, if_pos h2] at h
        obtain rfl : st = st' := by
          cases h
          rfl
        refine ⟨rfl, Finset.Subset.refl _, ⟨[], by simp⟩, ?_, ?_,
          fun h => h, fun _ h => h⟩
        · intro y hy
          exact Or.inl hy
        · intro hns
          rcases h2 with h2 | h2
          · exact h2
          · exact absurd hns h2
      · push_neg at h2
        obtain ⟨hnv, hns⟩ := h2
        rw [visitCtx, if_neg h1, if_neg (by push_neg; exact ⟨hnv, hns⟩)] at h
        dsimp only at h
        -- the inner fold over the node's walkable input producers
        have listProps : ∀ (ids : List Nat) (st0 st3 : TopoState),
            ids.foldl
              (fun (s : Except TopoErr TopoState) p =>
                match s with
                | .error e => .error e
                | .ok st2 => visitCtx ctx ns n p st2)
              (.ok st0) = .ok st3 →
            st3.temp = st0.temp ∧
            st0.visited ⊆ st3.visited ∧
            (∃ app, st3.result = st0.result ++ app) ∧
            (∀ y ∈ st3.visited, y ∈ st0.visited ∨ (y ∈ ns ∧ y ∉ st0.temp)) ∧
            (∀ p ∈ ids, p ∈ ns → p ∈ st3.visited) ∧
            (TInv st0 → TInv st3) ∧
            (TInv st0 → TClosed ctx ns st0 → TClosed ctx ns st3) := by
          intro ids
          induction ids with
          | nil =>
            intro st0 st3 hf
            rw [List.foldl_nil] at hf
            obtain rfl : st0 = st3 := by
              cases hf
              rfl
            exact ⟨rfl, Finset.Subset.refl _, ⟨[], by simp⟩,
              fun y hy => Or.inl hy, fun p hp => by simp at hp,
              fun h => h, fun _ h => h⟩
          | cons p ps ihl =>
            intro st0 st3 hf
            rw [List.foldl_cons] at hf
            dsimp only at hf
            rcases hv : visitCtx ctx ns n p st0 with e | stm
            · rw [hv] at hf
              rw [visitFold_error] at hf
              exact absurd hf (by simp)
            · rw [hv] at hf
              obtain ⟨ht, hvis, ⟨app1, hres⟩, hnew, hens, hinv, hclo⟩ :=
                ih p st0 stm hv
              obtain ⟨ht2, hvis2, ⟨app2, hres2⟩, hnew2, hens2, hinv2, hclo2⟩ :=
                ihl stm st3 hf
              refine ⟨ht2.trans ht, hvis.trans hvis2,
                ⟨app1 ++ app2, by rw [hres2, hres, List.append_assoc]⟩,
                ?_, ?_, fun h => hinv2 (hinv h), fun h hc => hclo2 (hinv h) (hclo h hc)⟩
              · intro y hy
                rcases hnew2 y hy with hy2 | ⟨hy2, hy3⟩
                · rcases hnew y hy2 with hy4 | hy4
                  · exact Or.inl hy4
                  · exact Or.inr hy4
                · rw [ht] at hy3
                  exact Or.inr ⟨hy2, hy3⟩
              · intro q hq hqns
                rcases List.mem_cons.mp hq with rfl | hq2
                · exact hvis2 (hens hqns)
                · exact hens2 q hq2 hqns
        rcases hm : (ctxParents ctx id).foldl
            (fun (s : Except TopoErr TopoState) p =>
              match s with
              | .error e => .error e
              | .ok st2 => visitCtx ctx ns n p st2)
            (.ok { st with temp := insert id st.temp }) with e | st2
        · rw [hm] at h
          exact absurd h (by simp)
        · rw [hm] at h
          obtain rfl : ({ st2 with
              temp := st2.temp.erase id,
              visited := insert id st2.visited,
              result := st2.result ++ [id] } : TopoState) = st' := by
            cases h
            rfl
          obtain ⟨ht, hvis, ⟨app, hres⟩, hnew, hens, hinv, hclo⟩ :=
            listProps _ _ _ hm
          have hidnotv2 : id ∉ st2.visited := by
            intro hid2
            rcases hnew id hid2 with hid3 | ⟨_, hid3⟩
            · exact hnv hid3
            · exact hid3 (by simp)
          refine ⟨?_, ?_, ?_, ?_, ?_, ?_, ?_⟩
          · show st2.temp.erase id = st.temp
            rw [ht]
            exact Finset.erase_insert h1
          · intro y hy
            exact Finset.mem_insert_of_mem (hvis hy)
          · exact ⟨app ++ [id], by simp [hres]⟩
          · intro y hy
            rcases Finset.mem_insert.mp hy with rfl | hy2
            · exact Or.inr ⟨hns, h1⟩
            · rcases hnew y hy2 with hy3 | ⟨hy3, hy4⟩
              · exact Or.inl hy3
              · refine Or.inr ⟨hy3, fun hy5 => hy4 ?_⟩
                exact Finset.mem_insert_of_mem hy5
          · intro _
            exact Finset.mem_insert_self _ _
          · rintro hI
            obtain ⟨hnd, hfin⟩ := hinv hI
            have hidnotr : id ∉ st2.result := by
              intro hid2
              exact hidnotv2 (hfin ▸ List.mem_toFinset.mpr hid2)
            refine ⟨?_, ?_⟩
            · rw [List.nodup_append]
              exact ⟨hnd, List.nodup_singleton id, by
                intro a ha hb
                simp at hb
                subst hb
                exact hidnotr ha⟩
            · show (st2.result ++ [id]).toFinset = insert id st2.visited
              rw [List.toFinset_append, hfin]
              simp only [List.toFinset_cons, List.toFinset_nil, insert_emptyc_eq]
              rw [Finset.union_comm, ← Finset.insert_eq]
          · intro hI hC
            have hC2 : TClosed ctx ns st2 := hclo hI hC
            obtain ⟨_, hfin⟩ := hinv hI
            intro c hc q hq hqns
            show List.Sublist [q, c] (st2.result ++ [id])
            rcases List.mem_append.mp hc with hc2 | hc2
            · exact (hC2 c hc2 q hq hqns).trans (List.sublist_append_left _ _)
            · simp at hc2
              subst hc2
              have hq2 : q ∈ ctxParents ctx c := hq
              have hq3 : q ∈ st2.visited := hens q hq2 hqns
              have hq4 : q ∈ st2.result := by
                rw [← hfin] at hq3
                exact List.mem_toFinset.mp hq3
              exact List.Sublist.append (List.singleton_sublist.mpr hq4)
                (List.Sublist.refl [c])

end TTLazy

namespace TTLazy

/-- A rank function increasing along edges increases along nonempty paths. -/
theorem ctxPathPlus_ord (ctx : Context) (ord : Nat → Nat)
    (hord : ∀ p c, ctxEdge ctx p c → ord p < ord c) {a b : Nat}
    (h : CtxPathPlus ctx a b) : ord a < ord b := by
  induction h with
  | single he => exact hord _ _ he
  | step he _ ih => exact lt_trans (hord _ _ he) ih

/-- The per-node form of acyclicity (decidable on a concrete store) gives
the edge-wise rank increase. -/
theorem ctxEdge_ord (ctx : Context) (ord : Nat → Nat)
    (hord : ∀ nd ∈ ctx.nodes, ∀ p ∈ ctxParents ctx nd.id, ord p < ord nd.id) :
    ∀ p c, ctxEdge ctx p c → ord p < ord c := by
  intro p c h
  rw [ctxEdge, ctxParents] at h
  rcases hn : ctx.getNode c with _ | nd
  · rw [hn] at h
    simp at h
  · rw [hn] at h
    have hmem : nd ∈ ctx.nodes := List.mem_of_find?_eq_some hn
    have hid : nd.id = c := by
      have := List.find?_some hn
      simpa using this
    have hp : p ∈ ctxParents ctx nd.id := by
      rw [hid, ctxParents, hn]
      exact h
    have := hord nd hmem p hp
    rwa [hid] at this

/-- Under acyclicity (a rank function on ids increasing along lazy-input
edges) and with fuel above the number of unmarked set members, the DFS
visit neither exhausts its fuel nor reports a cycle. -/
theorem visitCtx_ok_exists (ctx : Context) (ns : Finset Nat) (ord : Nat → Nat)
    (hord : ∀ p c, ctxEdge ctx p c → ord p < ord c) :
    ∀ (fuel id : Nat) (st : TopoState),
      st.temp ⊆ ns → (ns \ st.temp).card < fuel →
      (∀ t ∈ st.temp, CtxPathPlus ctx id t) →
      ∃ st', visitCtx ctx ns fuel id st = .ok st' := by
  intro fuel
  induction fuel with
  | zero =>
    intro id st _ hcard _
    exact absurd hcard (Nat.not_lt_zero _)
  | succ n ih =>
    intro id st htsub hcard hinv
    by_cases h1 : id ∈ st.temp
    · have := ctxPathPlus_ord ctx ord hord (hinv id h1)
      omega
    · rw [visitCtx, if_neg h1]
      by_cases h2 : id ∈ st.visited ∨ id ∉ ns
      · rw [if_pos h2]
        exact ⟨st, rfl⟩
      · push_neg at h2
        obtain ⟨hnv, hns⟩ := h2
        rw [if_neg (by push_neg; exact ⟨hnv, hns⟩)]
        dsimp only
        have hsub1 : insert id st.temp ⊆ ns := by
          intro y hy
          rcases Finset.mem_insert.mp hy with rfl | hy2
          · exact hns
          · exact htsub hy2
        have hcard1 : (ns \ insert id st.temp).card < n := by
          have hsd : ns \ insert id st.temp ⊆ ns \ st.temp :=
            Finset.sdiff_subset_sdiff (Finset.Subset.refl ns)
              (Finset.subset_insert id st.temp)
          have h2m : id ∈ ns \ st.temp := Finset.mem_sdiff.mpr ⟨hns, h1⟩
          have h3m : id ∉ ns \ insert id st.temp := by simp
          have h4 : (ns \ insert id st.temp).card < (ns \ st.temp).card :=
            Finset.card_lt_card ((Finset.ssubset_iff_of_subset hsd).mpr
              ⟨id, h2m, h3m⟩)
          omega
        have hlist : ∀ (ids : List Nat),
            (∀ p ∈ ids, ∀ t ∈ insert id st.temp, CtxPathPlus ctx p t) →
            ∀ (s0 : TopoState), s0.temp = insert id st.temp →
            ∃ stf, ids.foldl
              (fun (s : Except TopoErr TopoState) p =>
                match s with
                | .error e => .error e
                | .ok st2 => visitCtx ctx ns n p st2)
              (.ok s0) = .ok stf ∧ stf.temp = insert id st.temp := by
          intro ids
          induction ids with
          | nil =>
            intro _ s0 heq
            exact ⟨s0, rfl, heq⟩
          | cons p ps ihl =>
            intro hps s0 heq
            obtain ⟨stm, hv⟩ := ih p s0 (heq ▸ hsub1) (by rw [heq]; exact hcard1)
              (by rw [heq]; exact hps p (by simp))
            have htm : stm.temp = insert id st.temp := by
              rw [(visitCtx_ok_props ctx ns n p s0 stm hv).1, heq]
            obtain ⟨stf, hfold, htf⟩ :=
              ihl (fun q hq => hps q (by simp [hq])) stm htm
            refine ⟨stf, ?_, htf⟩
            rw [List.foldl_cons]
            dsimp only
            rw [hv]
            exact hfold
        have hparents : ∀ p ∈ ctxParents ctx id,
            ∀ t ∈ insert id st.temp, CtxPathPlus ctx p t := by
          intro p hp t ht
          have hedge : ctxEdge ctx p id := hp
          rcases Finset.mem_insert.mp ht with rfl | ht2
          · exact .single hedge
          · exact .step hedge (hinv t ht2)
        obtain ⟨st2, hst2, _⟩ := hlist (ctxParents ctx id) hparents
          { st with temp := insert id st.temp } rfl
        refine ⟨{ st2 with
          temp := st2.temp.erase id,
          visited := insert id st2.visited,
          result := st2.result ++ [id] }, ?_⟩
        rw [hst2]

/-- Properties of the outer loop of Context::topological_sort: with the
fuel above the set size and an acyclic store, folding the enumeration keeps
the invariants and visits every enumerated set member. -/
theorem ctxTopo_fold_props (ctx : Context) (ns : Finset Nat) (ord : Nat → Nat)
    (hord : ∀ p c, ctxEdge ctx p c → ord p < ord c)
    (tfuel : Nat) (hfuel : ns.card < tfuel) :
    ∀ (ids : List Nat) (st : TopoState),
      st.temp = ∅ → TInv st → TClosed ctx ns st → st.visited ⊆ ns →
      ∃ stf, ids.foldl
          (fun (s : Except TopoErr TopoState) id =>
            match s with
            | .error e => .error e
            | .ok st =>
              if id ∉ st.visited then visitCtx ctx ns tfuel id st else .ok st)
          (.ok st) = .ok stf ∧
        stf.temp = ∅ ∧ TInv stf ∧ TClosed ctx ns stf ∧ stf.visited ⊆ ns ∧
        st.visited ⊆ stf.visited ∧ (∀ x ∈ ids, x ∈ ns → x ∈ stf.visited) := by
  intro ids
  induction ids with
  | nil =>
    intro st h0 hI hC hsub
    exact ⟨st, rfl, h0, hI, hC, hsub, Finset.Subset.refl _, fun x hx => by simp at hx⟩
  | cons x xs ihl =>
    intro st h0 hI hC hsub
    by_cases hx : x ∈ st.visited
    · obtain ⟨stf, hfold, hp1, hp2, hp3, hp4, hp5, hp6⟩ := ihl st h0 hI hC hsub
      refine ⟨stf, ?_, hp1, hp2, hp3, hp4, hp5, ?_⟩
      · rw [List.foldl_cons]
        dsimp only
        rw [if_neg (not_not_intro hx)]
        exact hfold
      · intro q hq hqns
        rcases List.mem_cons.mp hq with rfl | hq2
        · exact hp5 hx
        · exact hp6 q hq2 hqns
    · obtain ⟨st', hv⟩ := visitCtx_ok_exists ctx ns ord hord tfuel x st
        (by rw [h0]; exact Finset.empty_subset ns)
        (by rw [h0]; simpa using hfuel)
        (by rw [h0]; intro t ht; simp at ht)
      obtain ⟨htemp, hvis, _, hnew, hens, hinvf, hclof⟩ :=
        visitCtx_ok_props ctx ns tfuel x st st' hv
      have hsub' : st'.visited ⊆ ns := by
        intro y hy
        rcases hnew y hy with hy2 | ⟨hy2, _⟩
        · exact hsub hy2
        · exact hy2
      obtain ⟨stf, hfold, hp1, hp2, hp3, hp4, hp5, hp6⟩ :=
        ihl st' (htemp.trans h0) (hinvf hI) (hclof hI hC) hsub'
      refine ⟨stf, ?_, hp1, hp2, hp3, hp4, hvis.trans hp5, ?_⟩
      · rw [List.foldl_cons]
        dsimp only
        rw [if_pos hx]
        rw [hv]
        exact hfold
      · intro q hq hqns
        rcases List.mem_cons.mp hq with rfl | hq2
        · exact hp5 (hens hqns)
        · exact hp6 q hq2 hqns

/-- C1: for an acyclic store (witnessed by a rank function increasing
along every lazy-input edge recorded in the store), Context's topological
sort applied to the dependency set of any root list, iterated through any
enumeration of that unordered set, succeeds and returns a duplicate-free
sequence holding exactly the dependency set, in which for every lazy-input
edge (p, c) with both endpoints in the set the producer p appears before
the consumer c. -/
theorem C1_topological_sort (ctx : Context) (outputs : List Tensor)
    (dfuel tfuel : Nat) (ord : Nat → Nat) (order : List Nat)
    (hord : ∀ nd ∈ ctx.nodes, ∀ p ∈ ctxParents ctx nd.id, ord p < ord nd.id)
    (henum : order.toFinset = ctxGetDependencies ctx outputs dfuel)
    (hfuel : (ctxGetDependencies ctx outputs dfuel).card < tfuel) :
    ∃ L, ctxTopologicalSort ctx (ctxGetDependencies ctx outputs dfuel)
        order tfuel = .ok L ∧
      L.Nodup ∧ L.toFinset = ctxGetDependencies ctx outputs dfuel ∧
      ∀ p c, ctxEdge ctx p c → p ∈ ctxGetDependencies ctx outputs dfuel →
        c ∈ ctxGetDependencies ctx outputs dfuel → List.Sublist [p, c] L := by
  have hordE := ctxEdge_ord ctx ord hord
  obtain ⟨stf, hfold, _, hInv, hClo, hsubset, _, hens⟩ :=
    ctxTopo_fold_props ctx (ctxGetDependencies ctx outputs dfuel) ord hordE
      tfuel hfuel order {} rfl ⟨List.nodup_nil, by simp⟩
      (by intro c hc; simp at hc) (Finset.empty_subset _)
  have hvis : stf.visited = ctxGetDependencies ctx outputs dfuel := by
    refine Finset.Subset.antisymm hsubset ?_
    intro x hx
    exact hens x (by rw [← henum] at hx; exact List.mem_toFinset.mp hx) hx
  refine ⟨stf.result, ?_, hInv.1, ?_, ?_⟩
  · rw [ctxTopologicalSort, hfold]
  · rw [hInv.2, hvis]
  · intro p c he hp hc
    have hcL : c ∈ stf.result := by
      rw [← hvis, ← hInv.2] at hc
      exact List.mem_toFinset.mp hc
    exact hClo c hcL p he hp

/-- Witness for C1: the three-node store (MatMul feeding Add and ReLU),
roots both consumer outputs, identity rank function, enumeration [1,2,3]. -/
theorem C1_topological_sort_witness :
    (∀ nd ∈ ctxB.nodes, ∀ p ∈ ctxParents ctxB nd.id, (fun x => x) p < (fun x => x) nd.id) ∧
    (([1, 2, 3] : List Nat).toFinset = ctxGetDependencies ctxB [t2, t3] 16) ∧
    ((ctxGetDependencies ctxB [t2, t3] 16).card < 16) ∧
    (∃ L, ctxTopologicalSort ctxB (ctxGetDependencies ctxB [t2, t3] 16)
        [1, 2, 3] 16 = .ok L ∧
      L.Nodup ∧ L.toFinset = ctxGetDependencies ctxB [t2, t3] 16 ∧
      ∀ p c, ctxEdge ctxB p c → p ∈ ctxGetDependencies ctxB [t2, t3] 16 →
        c ∈ ctxGetDependencies ctxB [t2, t3] 16 → List.Sublist [p, c] L) :=
  ⟨by decide, by decide, by decide,
   C1_topological_sort ctxB [t2, t3] 16 16 (fun x => x) [1, 2, 3]
     (by decide) (by decide) (by decide)⟩

end TTLazy
